import Mathlib

/-!
Verification of the analysis core of a ca65 language server.

The TypeScript sources are shallowly embedded in Lean:

* the line lexer `parseLine` and its helper `getNextRest`;
* the anonymous-label utilities (`getAnonLabelRefOffsetFromPreviousLabel`,
  `findPreviousAnonymousLabelIndex`, `getAnonymousLabelIndex`);
* the workspace `ExportsMap`;
* the `IncludesGraph` with its translation-unit iterator;
* the symbol table (`Scope.findName` lookup walk) and the resolver
  (`resolveLocalReference`, `resolveReference`, `resolveImport`,
  `resolveExport`, `isEntityUsed`);
* the inlay-hint import loop;
* the document scanner's generic line handler (`maybeHandleGenericLine`).

JS strings are embedded as `List Char`, JS `Map`s as insertion-ordered
association lists, JS `Set`s as duplicate-free lists, and object identity as
positional coordinates into arenas.  Memoization caches are dropped: they
only replay previously computed results, so the uncached path is the
observable behavior.
-/

namespace Ca65

/-- Whitespace as matched by the JS `\s` class and `trim` on the character
set the lexer manipulates. -/
def isWs (c : Char) : Bool :=
  c = ' ' || c = '\t' || c = '\n' || c = '\r' || c = '\x0b' || c = '\x0c'

/-- JS `String.prototype.indexOf` for a single character; JS's `-1` becomes
`none`. -/
def jsIndexOf : List Char → Char → Option Nat
  | [], _ => none
  | a :: l, c => if a = c then some 0 else (jsIndexOf l c).map (· + 1)

/-- JS `trimLeft` (equivalently `trimStart`). -/
def jsTrimLeft (l : List Char) : List Char :=
  l.dropWhile isWs

/-- JS `trimRight` (equivalently `trimEnd`). -/
def jsTrimRight (l : List Char) : List Char :=
  (l.reverse.dropWhile isWs).reverse

/-- JS `trim`. -/
def jsTrim (l : List Char) : List Char :=
  jsTrimRight (jsTrimLeft l)

/-- An item produced by the line lexer: the item's text together with its
byte offset in the original line. -/
structure LineItem where
  text : List Char
  index : Nat
deriving DecidableEq, Repr

/-- The result of `parseLine`: up to four optional items. -/
structure ParsedLine where
  label? : Option LineItem := none
  command? : Option LineItem := none
  args? : Option LineItem := none
  comment? : Option LineItem := none
deriving DecidableEq, Repr

/-- `getNextRest` from `parseLine`: drop `startIndex` characters, strip the
leading whitespace and report the new absolute offset. -/
def getNextRest (rest : List Char) (currentOffset startIndex : Nat) :
    List Char × Nat :=
  let afterStart := rest.drop startIndex
  let trimmed := afterStart.dropWhile isWs
  let skipped := afterStart.length - trimmed.length
  (trimmed, currentOffset + min startIndex rest.length + skipped)

/-- The test `':<>+-'.includes(rest.charAt(colonIndex + 1))` from the label
block.  JS note: `charAt` past the end of the string returns `''` and
`includes('')` is `true`, so a colon that ends the (comment-stripped) line
also refuses the label. -/
def isAnonColonNext (rest1 : List Char) (colonIndex : Nat) : Bool :=
  match rest1.get? (colonIndex + 1) with
  | some c => c == ':' || c == '<' || c == '>' || c == '+' || c == '-'
  | none => true

/-- The label block of `parseLine`: find the first `:`, refuse the label when
the character after the colon belongs to an anonymous-label construct or when
the candidate text contains whitespace. -/
def parseLineLabel (rest1 : List Char) (off1 : Nat) :
    Option LineItem × List Char × Nat :=
  match jsIndexOf rest1 ':' with
  | some colonIndex =>
    if isAnonColonNext rest1 colonIndex then (none, rest1, off1)
    else
      let labelText := jsTrim (rest1.take colonIndex)
      if labelText.any isWs then (none, rest1, off1)
      else
        let p2 := getNextRest rest1 off1 (colonIndex + 1)
        (some ⟨labelText, off1⟩, p2.1, p2.2)
  | none => (none, rest1, off1)

/-- The command/args block of `parseLine`: the command is
`rest.trim().split(/\s+/)[0]`, the args are the right-trimmed remainder. -/
def parseLineCommand (rest2 : List Char) (off2 : Nat) :
    Option LineItem × Option LineItem :=
  let commandText := (jsTrim rest2).takeWhile (fun c => !isWs c)
  match commandText with
  | [] => (none, none)
  | _ :: _ =>
    let p3 := getNextRest rest2 off2 commandText.length
    let args? : Option LineItem :=
      if p3.1.length > 0 then some ⟨jsTrimRight p3.1, p3.2⟩ else none
    (some ⟨commandText, off2⟩, args?)

/-- The comment item of `parseLine`: everything from the plain
`indexOf(';')` on. -/
def parseLineComment (line0 : List Char) : Option LineItem :=
  match jsIndexOf line0 ';' with
  | some i => some ⟨line0.drop i, i⟩
  | none => none

/-- The comment-stripped remainder of the line (`line.slice(0, semicolonIndex)`). -/
def parseLineStrip (line0 : List Char) : List Char :=
  match jsIndexOf line0 ';' with
  | some i => line0.take i
  | none => line0

/-- The line lexer `parseLine`.  The comment is sliced off first at the plain
`indexOf(';')`; the remainder is lexed into label, command and args. -/
def parseLine (line0 : List Char) : ParsedLine :=
  let line := parseLineStrip line0
  let p1 := getNextRest line 0 0
  let lab := parseLineLabel p1.1 p1.2
  let ca := parseLineCommand lab.2.1 lab.2.2
  { label? := lab.1, command? := ca.1, args? := ca.2,
    comment? := parseLineComment line0 }

/-- Modelled from the spec: the position of the first `;` that lies outside
of a string literal or character literal on the line (not present in the
code; it is the spec's description of where a comment begins).  A `"` toggles
string-literal state unless inside a character literal; a `'` toggles
character-literal state unless inside a string literal. -/
def specCommentStartAux : List Char → Nat → Bool → Bool → Option Nat
  | [], _, _, _ => none
  | c :: rest, i, inStr, inChar =>
    if c == ';' && !inStr && !inChar then some i
    else if c == '"' && !inChar then specCommentStartAux rest (i + 1) (!inStr) inChar
    else if c == '\'' && !inStr then specCommentStartAux rest (i + 1) inStr (!inChar)
    else specCommentStartAux rest (i + 1) inStr inChar

/-- Modelled from the spec: «A comment begins at the first `;` outside of a
string/char literal on that line». -/
def specCommentStart (l : List Char) : Option Nat :=
  specCommentStartAux l 0 false false

/-! ## Anonymous labels (`anonymousLabelUtils`) -/

/-- `getAnonLabelRefOffsetFromPreviousLabel`: the signed offset encoded by a
`:[-+<>]+` token.  `label.slice(1)` is the symbol run; a run starting with
`+` or `>` contributes its length, any other run contributes
`1 - (its length)`. -/
def getAnonLabelRefOffsetFromPreviousLabel (label : List Char) : Int :=
  let symbols := label.drop 1
  if symbols.head? == some '+' || symbols.head? == some '>' then
    (symbols.length : Int)
  else
    1 - (symbols.length : Int)

/-- The loop of `findPreviousAnonymousLabelIndex`: basic binary search over
`anonymousLabelLines` for the last index whose line is ≤ `lineNumber`, with
`closestMatch` starting at `-1`.  The JS loop terminates because `stop -
start` strictly decreases; the `fuel` argument makes that structural, and the
wrapper passes enough fuel that `0` is never reached.  Every reachable probe
has `searchIndex < stop ≤ anonLines.length`, so `getD`'s default is never
read. -/
def findPrevAnonAux (anonLines : List Nat) (lineNumber : Nat) :
    Nat → Nat → Nat → Int → Int
  | 0, _, _, closestMatch => closestMatch
  | fuel + 1, start, stop, closestMatch =>
    if start < stop then
      if lineNumber = anonLines.getD ((stop - start) / 2 + start) 0 then
        (((stop - start) / 2 + start : Nat) : Int)
      else if lineNumber > anonLines.getD ((stop - start) / 2 + start) 0 then
        findPrevAnonAux anonLines lineNumber fuel ((stop - start) / 2 + start + 1) stop
          (((stop - start) / 2 + start : Nat) : Int)
      else
        findPrevAnonAux anonLines lineNumber fuel start ((stop - start) / 2 + start)
          closestMatch
    else closestMatch

/-- `findPreviousAnonymousLabelIndex` on the file's recorded
`anonymousLabelLines` (the `!symbolTable` guard is outside this model). -/
def findPreviousAnonymousLabelIndex (anonLines : List Nat) (lineNumber : Nat) : Int :=
  findPrevAnonAux anonLines lineNumber (anonLines.length + 1) 0 anonLines.length (-1)

/-- The reference-token branch of `getAnonymousLabelIndex`, for a `:[-+<>]+`
token sitting on line `line`: `targetIndex` is the previous-label index plus
the token's offset (written out twice here in place of the source's local);
an out-of-range target returns `-1` (the source's `return -1`). -/
def getAnonymousLabelIndexOfRef (anonLines : List Nat) (line : Nat)
    (tok : List Char) : Int :=
  if findPreviousAnonymousLabelIndex anonLines line
        + getAnonLabelRefOffsetFromPreviousLabel tok < 0
      ∨ (anonLines.length : Int)
        ≤ findPreviousAnonymousLabelIndex anonLines line
          + getAnonLabelRefOffsetFromPreviousLabel tok
  then -1
  else findPreviousAnonymousLabelIndex anonLines line
        + getAnonLabelRefOffsetFromPreviousLabel tok

/-- `getAnonymousLabelDefinition`, reduced to the defining line it reports:
`anonymousLabelLines[index]` is `undefined` for a negative index (the `-1`
of the out-of-range case), which yields no result. -/
def getAnonymousLabelDefLine (anonLines : List Nat) (line : Nat)
    (tok : List Char) : Option Nat :=
  if 0 ≤ getAnonymousLabelIndexOfRef anonLines line tok then
    anonLines.get? (getAnonymousLabelIndexOfRef anonLines line tok).toNat
  else none

/-- Modelled from the spec: «the index of the last anonymous label at line ≤
L» — for a strictly increasing line list this is the count of lines ≤ L,
minus one (`-1` when there is none). -/
def specPrevIndex (anonLines : List Nat) (lineNumber : Nat) : Int :=
  (anonLines.countP (fun x => x ≤ lineNumber) : Int) - 1

/-- Modelled from the spec: the offset `k` is «the count of `+`/`>` chars
minus the count of `-`/`<` chars, with `+`/`>` counted positively and the
first `-`/`<` being the label immediately previous» — so each `-`/`<` counts
−1 and the presence of a first `-`/`<` adds one back: `:-` gives 0, `:+`
gives 1, `:--` gives −1. -/
def specAnonRefOffset (tok : List Char) : Int :=
  let symbols := tok.drop 1
  let plus := (symbols.filter (fun c => c == '+' || c == '>')).length
  let minus := (symbols.filter (fun c => c == '-' || c == '<')).length
  (plus : Int) - (minus : Int) + (if 0 < minus then 1 else 0)

/-! ## JS `Map`s as insertion-ordered association lists -/

/-- JS `Map.prototype.set`: replace in place when the key exists, else
append. -/
def jsMapSet {α : Type} : List (String × α) → String → α → List (String × α)
  | [], k, v => [(k, v)]
  | (k', v') :: rest, k, v =>
    if k' = k then (k, v) :: rest else (k', v') :: jsMapSet rest k v

/-- JS `Map.prototype.get`. -/
def jsMapGet {α : Type} : List (String × α) → String → Option α
  | [], _ => none
  | (k', v') :: rest, k => if k' = k then some v' else jsMapGet rest k

/-- JS `Map.prototype.delete` (dropping the result flag). -/
def jsMapDelete {α : Type} : List (String × α) → String → List (String × α)
  | [], _ => []
  | (k', v') :: rest, k => if k' = k then rest else (k', v') :: jsMapDelete rest k

/-! ## Exports and the `ExportsMap` -/

/-- `ExportKind` (`symbolTable.ts`). -/
inductive ExportKind where
  | exported
  | global
deriving DecidableEq, Repr

/-- An `Export` object (`symbolTable.ts`).  `scope` is the index of the
enclosing scope in the owning file's scope arena (`none` for JS `null`);
`defLine` stands for the definition range, so that distinct export objects
parsed at different places differ as values — value equality then coincides
with JS object identity. -/
structure Export where
  uri : String
  kind : ExportKind := .exported
  name : String
  defLine : Nat := 0
  scope : Option Nat := none
deriving DecidableEq, Repr

/-- Remove the last occurrence of `e` (`lastIndexOf` + `splice(idx, 1)`;
no occurrence leaves the stack unchanged). -/
def removeLastOccurrence : List Export → Export → List Export
  | [], _ => []
  | x :: rest, e =>
    if x = e ∧ e ∉ rest then rest
    else x :: removeLastOccurrence rest e

/-- The workspace `ExportsMap`: per-URI export maps plus the global
baseName → stack view. -/
structure ExportsMap where
  perUri : List (String × List (String × Export)) := []
  global : List (String × List Export) := []
deriving DecidableEq, Repr

/-- `ExportsMap.addToGlobal`: push onto the stack for `baseName`, creating
it when absent. -/
def ExportsMap.addToGlobal (m : ExportsMap) (baseName : String) (e : Export) :
    ExportsMap :=
  match jsMapGet m.global baseName with
  | none => { m with global := jsMapSet m.global baseName [e] }
  | some stack => { m with global := jsMapSet m.global baseName (stack ++ [e]) }

/-- `ExportsMap.removeFromGlobal`: drop the last occurrence of `e` from the
stack for `baseName` and delete the key when the stack is left empty. -/
def ExportsMap.removeFromGlobal (m : ExportsMap) (baseName : String)
    (e : Export) : ExportsMap :=
  match jsMapGet m.global baseName with
  | none => m
  | some stack =>
    if (removeLastOccurrence stack e).length = 0 then
      { m with global := jsMapDelete m.global baseName }
    else
      { m with global := jsMapSet m.global baseName (removeLastOccurrence stack e) }

/-- `ExportsMap.updateExports`: remove the previous exports recorded for
`uri` from the global stacks, then push the new set and record it per URI.
The source interleaves building `newMap` and `addToGlobal` in one loop; the
two act on disjoint components, so they are two folds here. -/
def ExportsMap.updateExports (m : ExportsMap) (uri : String)
    (newExports : List Export) : ExportsMap :=
  let m1 :=
    match jsMapGet m.perUri uri with
    | none => m
    | some oldMap => oldMap.foldl (fun acc (p : String × Export) => acc.removeFromGlobal p.1 p.2) m
  let m2 := newExports.foldl (fun acc e => acc.addToGlobal e.name e) m1
  let newMap := newExports.foldl (fun acc e => jsMapSet acc e.name e) []
  { m2 with perUri := jsMapSet m2.perUri uri newMap }

/-- `ExportsMap.removeUri`. -/
def ExportsMap.removeUri (m : ExportsMap) (uri : String) : ExportsMap :=
  match jsMapGet m.perUri uri with
  | none => m
  | some oldMap =>
    let m1 := oldMap.foldl (fun acc (p : String × Export) => acc.removeFromGlobal p.1 p.2) m
    { m1 with perUri := jsMapDelete m1.perUri uri }

/-- `ExportsMap.get`: the current stack for a base name. -/
def ExportsMap.get (m : ExportsMap) (baseName : String) : List Export :=
  (jsMapGet m.global baseName).getD []

/-! ## The includes graph (`includesGraph.ts`) -/

/-- JS `Set.prototype.add` on a duplicate-free list in insertion order. -/
def jsSetAdd (s : List String) (x : String) : List String :=
  if x ∈ s then s else s ++ [x]

/-- `new Set(array)`: deduplicate keeping first occurrences. -/
def jsSetOfList (l : List String) : List String :=
  l.foldl jsSetAdd []

/-- A `FileNode`: both adjacency sets, in JS `Set` insertion order.  The
JS sets hold node object references; one object exists per URI, so URIs
stand for the references. -/
structure FileNode where
  includes : List String := []
  includedBy : List String := []
deriving DecidableEq, Repr

/-- The `IncludesGraph`: the `nodes` map. -/
structure IncludesGraph where
  nodes : List (String × FileNode) := []
deriving DecidableEq, Repr

/-- `getOrCreateNode`, seen as the graph after the call (the JS return value
is the entry for `uri` afterwards). -/
def IncludesGraph.getOrCreate (g : IncludesGraph) (uri : String) : IncludesGraph :=
  if (jsMapGet g.nodes uri).isSome then g
  else { nodes := g.nodes ++ [(uri, {})] }

/-- Rewrite every entry stored under key `u` with `f` (equivalently
`l.map (fun p => if p.1 = u then (p.1, f p.2) else p)`, written recursively
for easy induction). -/
def modifyEntries {α : Type} (u : String) (f : α → α) :
    List (String × α) → List (String × α)
  | [] => []
  | (k', v) :: rest =>
    if k' = u then (k', f v) :: modifyEntries u f rest
    else (k', v) :: modifyEntries u f rest

/-- Apply `f` to the node stored for `uri` (a JS method call mutating the
node object in place). -/
def IncludesGraph.modifyNode (g : IncludesGraph) (uri : String)
    (f : FileNode → FileNode) : IncludesGraph :=
  { nodes := modifyEntries uri f g.nodes }

/-- The `includes` set of `uri` (empty for an absent node). -/
def IncludesGraph.includesOf (g : IncludesGraph) (uri : String) : List String :=
  ((jsMapGet g.nodes uri).map FileNode.includes).getD []

/-- The `includedBy` set of `uri` (empty for an absent node). -/
def IncludesGraph.includedByOf (g : IncludesGraph) (uri : String) : List String :=
  ((jsMapGet g.nodes uri).map FileNode.includedBy).getD []

/-- `updateIncludes`: create the source and target nodes, snapshot the old
includes, fix up the inverse edges for removed and added targets, then
install the new includes set. -/
def IncludesGraph.updateIncludes (g : IncludesGraph) (uri : String)
    (newIncludeUris : List String) : IncludesGraph :=
  let g1 := g.getOrCreate uri
  let g2 := newIncludeUris.foldl (fun acc u => acc.getOrCreate u) g1
  let oldIncludes := g2.includesOf uri
  let newIncludes := jsSetOfList newIncludeUris
  let g3 := oldIncludes.foldl
    (fun acc old =>
      if old ∈ newIncludes then acc
      else acc.modifyNode old
        (fun n => { n with includedBy := n.includedBy.erase uri })) g2
  let g4 := newIncludes.foldl
    (fun acc nw =>
      if nw ∈ oldIncludes then acc
      else acc.modifyNode nw
        (fun n => { n with includedBy := jsSetAdd n.includedBy uri })) g3
  g4.modifyNode uri (fun n => { n with includes := newIncludes })

/-- `removeFile`: clear the inverse edges in both directions, then drop the
node.  The second loop iterates the node's `includes` **after** the first
loop may have mutated it (this matters for self-loops), hence the read from
the intermediate graph. -/
def IncludesGraph.removeFile (g : IncludesGraph) (uri : String) : IncludesGraph :=
  match jsMapGet g.nodes uri with
  | none => g
  | some node =>
    let g1 := node.includedBy.foldl
      (fun acc dep => acc.modifyNode dep
        (fun n => { n with includes := n.includes.erase uri })) g
    let g2 := (g1.includesOf uri).foldl
      (fun acc dep => acc.modifyNode dep
        (fun n => { n with includedBy := n.includedBy.erase uri })) g1
    { nodes := jsMapDelete g2.nodes uri }

/-- The direction argument of `getTransitiveLinks`. -/
inductive LinkDir where
  | includes
  | includedBy
deriving DecidableEq, Repr

/-- `node[direction]`. -/
def IncludesGraph.adj (g : IncludesGraph) (dir : LinkDir) (uri : String) :
    List String :=
  match dir with
  | .includes => g.includesOf uri
  | .includedBy => g.includedByOf uri

/-- The loop of `getTransitiveLinks`: iterative DFS.  JS pops from the end
of the `stack` array and pushes the neighbors in iteration order; with the
list head as the stack top that push is a `reverse ++`.  The `fuel` makes
the loop structural; `getTransitiveLinks` passes one more than the total
adjacency size, which the loop can never consume (each popped unvisited
node spends its own degree in pushes). -/
def dfsAux (g : IncludesGraph) (dir : LinkDir) :
    Nat → List String → List String → List String
  | 0, _, _ => []
  | _ + 1, [], _ => []
  | fuel + 1, n :: rest, visited =>
    if n ∈ visited then dfsAux g dir fuel rest visited
    else n :: dfsAux g dir fuel ((g.adj dir n).reverse ++ rest) (n :: visited)

/-- The total adjacency size of the graph in one direction. -/
def IncludesGraph.totalAdj (g : IncludesGraph) (dir : LinkDir) : Nat :=
  (g.nodes.map (fun p =>
    (match dir with
     | .includes => p.2.includes
     | .includedBy => p.2.includedBy).length)).sum

/-- `getTransitiveLinks`: DFS from `uri`, empty when `uri` has no node. -/
def IncludesGraph.getTransitiveLinks (g : IncludesGraph) (uri : String)
    (dir : LinkDir) : List String :=
  if (jsMapGet g.nodes uri).isSome then
    dfsAux g dir (g.totalAdj dir + 1) [uri] []
  else []

/-- `getTransitiveDependencies`. -/
def IncludesGraph.getTransitiveDependencies (g : IncludesGraph) (uri : String) :
    List String :=
  g.getTransitiveLinks uri .includes

/-- `getTransitiveDependents`. -/
def IncludesGraph.getTransitiveDependents (g : IncludesGraph) (uri : String) :
    List String :=
  g.getTransitiveLinks uri .includedBy

/-- `getIncludingRoots`: every transitive dependent (the file itself
included) that no file includes. -/
def IncludesGraph.getIncludingRoots (g : IncludesGraph) (uri : String) :
    List String :=
  (g.getTransitiveDependents uri).filter
    (fun d =>
      match jsMapGet g.nodes d with
      | some n => n.includedBy.length = 0
      | none => false)

/-- The per-root inner loop of `getTranslationUnit`: yield the dependencies
not yet in `visitedUris`, marking them as they are yielded; returns the
yielded list and the grown visited set. -/
def tuInner : List String → List String → List String × List String
  | [], visited => ([], visited)
  | d :: rest, visited =>
    if d ∈ visited then tuInner rest visited
    else
      ((d :: (tuInner rest (d :: visited)).1), (tuInner rest (d :: visited)).2)

/-- The outer loop of `getTranslationUnit` over the including roots. -/
def tuAux (g : IncludesGraph) : List String → List String → List String
  | [], _ => []
  | r :: rest, visited =>
    (tuInner (g.getTransitiveDependencies r) visited).1
      ++ tuAux g rest (tuInner (g.getTransitiveDependencies r) visited).2

/-- `getTranslationUnit`: for every including root, yield its transitive
dependencies, deduplicated across roots by the shared visited set. -/
def IncludesGraph.getTranslationUnit (g : IncludesGraph) (uri : String) :
    List String :=
  tuAux g (g.getIncludingRoots uri) []

/-- `isTranslationUnitRoot`. -/
def IncludesGraph.isTranslationUnitRoot (g : IncludesGraph) (uri : String) :
    Bool :=
  match jsMapGet g.nodes uri with
  | some n => n.includedBy.length = 0
  | none => false

/-- A mutation of the includes graph: the two public write operations. -/
inductive GraphOp where
  | update (uri : String) (newIncludeUris : List String)
  | remove (uri : String)
deriving DecidableEq, Repr

/-- Apply one operation. -/
def applyOp (g : IncludesGraph) : GraphOp → IncludesGraph
  | .update uri l => g.updateIncludes uri l
  | .remove uri => g.removeFile uri

/-- Apply a sequence of operations to a graph. -/
def applyOps (g : IncludesGraph) (ops : List GraphOp) : IncludesGraph :=
  ops.foldl applyOp g

/-- Structural well-formedness the graph maintains: node keys are unique and
every adjacency list is duplicate-free (JS `Map` keys and `Set` elements are
unique by construction). -/
def GraphWF (g : IncludesGraph) : Prop :=
  (g.nodes.map Prod.fst).Nodup
  ∧ ∀ p ∈ g.nodes, p.2.includes.Nodup ∧ p.2.includedBy.Nodup

/-- The mutual-inverse invariant of the two adjacency relations. -/
def GraphInv (g : IncludesGraph) : Prop :=
  ∀ a b, b ∈ g.includesOf a ↔ a ∈ g.includedByOf b

/-- The bounded (decidable) form of `GraphInv`, quantifying only over
entries of the node map. -/
def GraphInvB (g : IncludesGraph) : Prop :=
  (∀ p ∈ g.nodes, ∀ b ∈ (jsMapGet g.nodes p.1).map FileNode.includes |>.getD [],
      p.1 ∈ g.includedByOf b)
  ∧ (∀ p ∈ g.nodes, ∀ b ∈ (jsMapGet g.nodes p.1).map FileNode.includedBy |>.getD [],
      p.1 ∈ g.includesOf b)

instance (g : IncludesGraph) : Decidable (GraphInvB g) := by
  unfold GraphInvB
  infer_instance

/-- Reachability from `s` to `x` along `adj dir` edges through nodes that
all avoid `visited` (start and end included) — what one iteration of the
DFS visited set leaves reachable. -/
inductive ReachAvoid (g : IncludesGraph) (dir : LinkDir) (visited : List String) :
    String → String → Prop
  | refl {s : String} (hs : s ∉ visited) : ReachAvoid g dir visited s s
  | head {s y x : String} (hs : s ∉ visited) (hy : y ∈ g.adj dir s)
      (h : ReachAvoid g dir visited y x) : ReachAvoid g dir visited s x

/-- The bound on the number of DFS loop iterations still possible from a
given stack and visited set. -/
def dfsMeasure (g : IncludesGraph) (dir : LinkDir)
    (stack visited : List String) : Nat :=
  stack.length
    + ((g.nodes.filter (fun p => p.1 ∉ visited)).map
        (fun p => (g.adj dir p.1).length)).sum

/-! ## Symbol tables (`symbolTable.ts`)

A file's scope tree is embedded as an arena: `SymTab.scopes` is the list of
all `Scope` objects of the file, a scope's identity is its index, and the
root scope (created by the `SymbolTable` constructor with name `""` and
`null` parent) sits at index 0.  `Symbol`, `Import` and `Macro` objects are
value records carrying `uri`, `name` and `defLine` (standing for the
definition range, so that objects parsed at different places differ as
values and value equality coincides with JS object identity).  The parent
walks of `findName` and `getScopeStack` take fuel one larger than the arena,
which a parent chain of distinct scopes can never consume. -/

/-- A reference's resolution context (`ReferenceInfo.context`). -/
inductive RefContext where
  | symbol
  | scope
  | macroCtx
  | sizeof
deriving DecidableEq, Repr

/-- `ScopeKind`. -/
inductive STScopeKind where
  | scope
  | proc
  | struct
  | union
  | enum
deriving DecidableEq, Repr

/-- A `Symbol` object. -/
structure STSymbol where
  uri : String
  name : String
  defLine : Nat := 0
deriving DecidableEq, Repr

/-- An `Import` object; `defEndLine`/`defEndChar` are `definition.end`. -/
structure STImport where
  uri : String
  name : String
  defLine : Nat := 0
  defEndLine : Nat := 0
  defEndChar : Nat := 0
deriving DecidableEq, Repr

/-- A `Macro` object. -/
structure STMacro where
  uri : String
  name : String
  defLine : Nat := 0
deriving DecidableEq, Repr

/-- One `Scope` object of the arena.  `children`, `symbols` and `imports`
are the JS `Map<string, T[]>` fields in insertion order. -/
structure STScopeData where
  name : String
  kind : STScopeKind := .scope
  parent : Option Nat := none
  children : List (String × List Nat) := []
  symbols : List (String × List STSymbol) := []
  imports : List (String × List STImport) := []
deriving DecidableEq, Repr

/-- A `ReferenceInfo`: `scopeId` is the index of `ref.scope` in the arena
of the file `ref.uri`. -/
structure RefInfo where
  uri : String
  name : String
  qualifiers : List String := []
  context : RefContext := .symbol
  scopeId : Nat := 0
deriving DecidableEq, Repr

/-- A `SymbolTable`: the scope arena, the `macros` map, the `references`
array and the `imports` array. -/
structure SymTab where
  uri : String
  scopes : List STScopeData := []
  macros : List (String × STMacro) := []
  references : List RefInfo := []
  imports : List STImport := []
deriving DecidableEq, Repr

/-- What `findName` can return (`SymbolTableEntity`).  A scope result
carries its file, name, kind and arena index. -/
inductive STEntity where
  | sym (s : STSymbol)
  | scp (uri : String) (name : String) (kind : STScopeKind) (id : Nat)
  | imp (i : STImport)
  | mac (m : STMacro)
deriving DecidableEq, Repr

/-- The entity's `name` field. -/
def STEntity.name : STEntity → String
  | .sym s => s.name
  | .scp _ n _ _ => n
  | .imp i => i.name
  | .mac m => m.name

/-- The entity's `uri` field. -/
def STEntity.uri : STEntity → String
  | .sym s => s.uri
  | .scp u _ _ _ => u
  | .imp i => i.uri
  | .mac m => m.uri

/-- The scope object at an arena index. -/
def scopeData (tab : SymTab) (id : Nat) : Option STScopeData :=
  tab.scopes.get? id

/-- `Scope.getChildScope`: `this.childScopes.get(name)?.[0]`. -/
def getChildScope (tab : SymTab) (id : Nat) (name : String) : Option Nat :=
  (scopeData tab id).bind fun d => (jsMapGet d.children name).bind List.head?

/-- `Scope.getSymbol`: `this.symbols.get(name)` then `arr[0]`. -/
def getSymbolIn (tab : SymTab) (id : Nat) (name : String) : Option STSymbol :=
  (scopeData tab id).bind fun d => (jsMapGet d.symbols name).bind List.head?

/-- `Scope.getImport`: `this.imports.get(name)` then `arr[0]`. -/
def getImportIn (tab : SymTab) (id : Nat) (name : String) : Option STImport :=
  (scopeData tab id).bind fun d => (jsMapGet d.imports name).bind List.head?

/-- `SymbolTable.getMacro`. -/
def getMacroOf (tab : SymTab) (name : String) : Option STMacro :=
  jsMapGet tab.macros name

/-- The qualifier-descent loop of `findName`: follow `getChildScope` through
the qualifiers, `undefined` on the first miss. -/
def descendScopes (tab : SymTab) : Nat → List String → Option Nat
  | id, [] => some id
  | id, q :: rest =>
    match getChildScope tab id q with
    | some id2 => descendScopes tab id2 rest
    | none => none

/-- The body of one `findName` iteration once the qualifiers led to
`nextScope`: the child-scope check, then the symbol check, then the import
check, each guarded exactly as in the source. -/
def findInScope (tab : SymTab) (name : String) (context : RefContext)
    (allowImports : Bool) (nextId : Nat) : Option STEntity :=
  let scopeHit : Option STEntity :=
    match getChildScope tab nextId name with
    | some rsId =>
      match scopeData tab rsId with
      | some rd =>
        if context = .scope ∨ context = .sizeof ∨ rd.kind = .proc then
          some (.scp tab.uri rd.name rd.kind rsId)
        else none
      | none => none
    | none => none
  let symbolHit : Option STEntity :=
    match getSymbolIn tab nextId name with
    | some s => if context = .symbol ∨ context = .sizeof then some (.sym s) else none
    | none => none
  let importHit : Option STEntity :=
    if allowImports ∧ context = .symbol then
      (getImportIn tab nextId name).map .imp
    else none
  (scopeHit.orElse fun _ => symbolHit).orElse fun _ => importHit

/-- `Scope.findName`: walk up the parent chain; at the root clip a leading
empty qualifier (`qualifiers[0]?.length === 0`), the reassignment persisting
for the rest of the walk; descend the qualifiers and run the three checks,
else continue at the parent. -/
def findNameAux (tab : SymTab) (name : String) (context : RefContext)
    (allowImports : Bool) : Nat → Option Nat → List String → Option STEntity
  | 0, _, _ => none
  | _ + 1, none, _ => none
  | fuel + 1, some baseId, qualifiers =>
    match scopeData tab baseId with
    | none => none
    | some d =>
      let quals :=
        if d.parent.isNone then
          match qualifiers with
          | q :: rest => if q.length = 0 then rest else q :: rest
          | [] => []
        else qualifiers
      let hit :=
        match descendScopes tab baseId quals with
        | some nextId => findInScope tab name context allowImports nextId
        | none => none
      match hit with
      | some e => some e
      | none => findNameAux tab name context allowImports fuel d.parent quals

/-- `Scope.findDefinitionOrImport` from the scope at `baseId`. -/
def findDefinitionOrImport (tab : SymTab) (baseId : Nat) (name : String)
    (qualifiers : List String) (context : RefContext) : Option STEntity :=
  findNameAux tab name context true (tab.scopes.length + 1) (some baseId)
    qualifiers

/-- `Scope.findDefinition` from the scope at `baseId`. -/
def findDefinition (tab : SymTab) (baseId : Nat) (name : String)
    (qualifiers : List String) (context : RefContext) : Option STEntity :=
  findNameAux tab name context false (tab.scopes.length + 1) (some baseId)
    qualifiers

/-- `SymbolTableEntity.getScopeStack` for the scope at `id`: collect the
names of the proper ancestors (the scope itself excluded) up to but not
including the nameless root, outermost first. -/
def getScopeStackAux (tab : SymTab) : Nat → Option Nat → List String →
    List String
  | 0, _, acc => acc
  | fuel + 1, curr, acc =>
    match curr with
    | none => acc
    | some id =>
      match scopeData tab id with
      | none => acc
      | some d =>
        if d.name = "" then acc
        else getScopeStackAux tab fuel d.parent (d.name :: acc)

/-- `Scope.getScopeStack` of the scope at `id` (which walks the parents of
the receiver, so the walk starts at `id`'s parent… no: the receiver's own
name is not part of its `getScopeStack`, the walk starts at `this.scope`).
Here the walk starts at the parent of `id`. -/
def scopeStackOf (tab : SymTab) (id : Nat) : List String :=
  match scopeData tab id with
  | none => []
  | some d => getScopeStackAux tab (tab.scopes.length + 1) d.parent []

/-! ## The resolver (`symbolResolver.ts`)

The workspace is `tabs : List (String × SymTab)`, the `symbolTables` map
(the module-level map and the `allSymbolTables` argument are the same map in
the server).  The memoization caches are behavior-transparent and dropped. -/

/-- The macro branch of `resolveLocalReference`: first translation-unit file
whose table has a macro of the name. -/
def rlrMacroLoop (tabs : List (String × SymTab)) (name : String) :
    List String → Option STEntity
  | [] => none
  | uri :: rest =>
    match jsMapGet tabs uri with
    | none => rlrMacroLoop tabs name rest
    | some tab =>
      match getMacroOf tab name with
      | some m => some (.mac m)
      | none => rlrMacroLoop tabs name rest

/-- One file's lookup in the non-macro loop of `resolveLocalReference`: the
reference's own scope for the reference's file, the root scope otherwise;
a missing table yields nothing (`continue`). -/
def lookupInFile (tabs : List (String × SymTab)) (ref : RefInfo)
    (uri : String) : Option STEntity :=
  match jsMapGet tabs uri with
  | none => none
  | some tab =>
    if uri = ref.uri then
      findDefinitionOrImport tab ref.scopeId ref.name ref.qualifiers
        ref.context
    else
      findDefinitionOrImport tab 0 ref.name ref.qualifiers ref.context

/-- The non-macro loop of `resolveLocalReference`: on a hit that is an
`Import` set `importEntity` and `break` (the loop ends and returns
`importEntity`); on any other hit return it; else continue. -/
def rlrLoop (lookup : String → Option STEntity) :
    List String → Option STEntity
  | [] => none
  | uri :: rest =>
    match lookup uri with
    | none => rlrLoop lookup rest
    | some e =>
      match e with
      | .imp i => some (.imp i)
      | e' => some e'

/-- `resolveLocalReference`. -/
def resolveLocalReference (tabs : List (String × SymTab))
    (g : IncludesGraph) (ref : RefInfo) : Option STEntity :=
  if ref.context = .macroCtx then
    rlrMacroLoop tabs ref.name (g.getTranslationUnit ref.uri)
  else
    rlrLoop (lookupInFile tabs ref) (g.getTranslationUnit ref.uri)

/-- The loop of `resolveExport` over the export's translation unit: search
from the export's own scope in its own file (when it has one), from the
root scope elsewhere, with the export scope's qualifier stack; accept a
`Symbol` or a `proc` `Scope`. -/
def rexLoop (tabs : List (String × SymTab)) (ex : Export) :
    List String → Option STEntity
  | [] => none
  | uri :: rest =>
    match jsMapGet tabs uri with
    | none => rexLoop tabs ex rest
    | some tab =>
      let searchBase : Nat :=
        if uri = ex.uri ∧ ex.scope.isSome then ex.scope.getD 0 else 0
      let quals : List String :=
        match ex.scope with
        | some sid =>
          match jsMapGet tabs ex.uri with
          | some extab => scopeStackOf extab sid
          | none => []
        | none => []
      match findDefinition tab searchBase ex.name quals .symbol with
      | none => rexLoop tabs ex rest
      | some e =>
        match e with
        | .sym s => some (.sym s)
        | .scp u n k id =>
          if k = .proc then some (.scp u n k id) else rexLoop tabs ex rest
        | _ => rexLoop tabs ex rest

/-- `resolveExport`. -/
def resolveExport (tabs : List (String × SymTab)) (g : IncludesGraph)
    (ex : Export) : Option STEntity :=
  rexLoop tabs ex (g.getTranslationUnit ex.uri)

/-- The loop of `resolveImport` over the global export stack of the name. -/
def rimLoop (tabs : List (String × SymTab)) (g : IncludesGraph) :
    List Export → Option STEntity
  | [] => none
  | ex :: rest =>
    match resolveExport tabs g ex with
    | some r => some r
    | none => rimLoop tabs g rest

/-- `resolveImport`. -/
def resolveImport (em : ExportsMap) (tabs : List (String × SymTab))
    (g : IncludesGraph) (name : String) : Option STEntity :=
  rimLoop tabs g (em.get name)

/-- `resolveReference`: on a local `Import` consult the exports map and fall
back to the import itself; on no local hit try an implicit import for an
unqualified (or explicitly global) symbol reference. -/
def resolveReference (em : ExportsMap) (tabs : List (String × SymTab))
    (g : IncludesGraph) (implicitImports : Bool) (ref : RefInfo) :
    Option STEntity :=
  match resolveLocalReference tabs g ref with
  | some e =>
    match e with
    | .imp i =>
      match resolveImport em tabs g i.name with
      | some r => some r
      | none => some (.imp i)
    | e' => some e'
  | none =>
    if implicitImports ∧ ref.context = .symbol
        ∧ (ref.qualifiers = [] ∨ ref.qualifiers.head? = some "") then
      resolveImport em tabs g ref.name
    else none

/-- The inner reference loop of `isEntityUsed`, threading `refCount` and
returning as soon as it exceeds 1. -/
def ieuInner (tabs : List (String × SymTab)) (g : IncludesGraph)
    (ename : String) : List RefInfo → Nat → Bool × Nat
  | [], c => (false, c)
  | ref :: rest, c =>
    if ref.name = ename ∧ (resolveLocalReference tabs g ref).isSome then
      if c + 1 > 1 then (true, c + 1) else ieuInner tabs g ename rest (c + 1)
    else ieuInner tabs g ename rest c

/-- The outer translation-unit loop of `isEntityUsed`. -/
def ieuOuter (tabs : List (String × SymTab)) (g : IncludesGraph)
    (ename : String) : List String → Nat → Bool
  | [], _ => false
  | uri :: rest, c =>
    match jsMapGet tabs uri with
    | none => ieuOuter tabs g ename rest c
    | some tab =>
      match ieuInner tabs g ename tab.references c with
      | (true, _) => true
      | (false, c') => ieuOuter tabs g ename rest c'

/-- `isEntityUsed`. -/
def isEntityUsed (tabs : List (String × SymTab)) (g : IncludesGraph)
    (entity : STEntity) : Bool :=
  ieuOuter tabs g entity.name (g.getTranslationUnit entity.uri) 0

/-- All references of the translation-unit tables of `uri`, in iteration
order — what the two loops of `isEntityUsed` enumerate. -/
def tuReferences (tabs : List (String × SymTab)) (g : IncludesGraph)
    (uri : String) : List RefInfo :=
  (g.getTranslationUnit uri).flatMap fun u =>
    match jsMapGet tabs u with
    | some tab => tab.references
    | none => []

/-! ## Inlay hints (`inlayHintProvider.ts`) -/

/-- An `InlayHint` as the import-hint branch builds it. -/
structure InlayHint where
  label : String
  line : Nat
  character : Nat
deriving DecidableEq, Repr

/-- The import loop of the inlay-hint handler: for every import of the
document's table that `resolveImport` resolves, push a hint
`" from " ++ rel docUri resolved.uri` at the import definition's end.
`rel` stands for `getRelativePath` (Node's `path.relative`, outside the
repository). -/
def importHintsLoop (rel : String → String → String)
    (em : ExportsMap) (tabs : List (String × SymTab)) (g : IncludesGraph)
    (docUri : String) : List STImport → List InlayHint
  | [] => []
  | imp :: rest =>
    match resolveImport em tabs g imp.name with
    | none => importHintsLoop rel em tabs g docUri rest
    | some resolved =>
      { label := " from " ++ rel docUri resolved.uri,
        line := imp.defEndLine,
        character := imp.defEndChar }
        :: importHintsLoop rel em tabs g docUri rest

/-- The `importFromHints` section of the inlay-hint handler (the setting
enabled; a missing document or table yields no hints). -/
def importFromHints (rel : String → String → String) (em : ExportsMap)
    (tabs : List (String × SymTab)) (g : IncludesGraph) (docUri : String) :
    List InlayHint :=
  match jsMapGet tabs docUri with
  | none => []
  | some tab => importHintsLoop rel em tabs g docUri tab.imports

/-! ## Concrete workspaces for the resolver properties -/

/-- Two files, `f1` including `f2`. -/
def c1Graph : IncludesGraph := (⟨[]⟩ : IncludesGraph).updateIncludes "f1" ["f2"]

/-- The import of `n` declared in `f1`. -/
def c1Import : STImport :=
  { uri := "f1", name := "n", defLine := 1, defEndLine := 1, defEndChar := 9 }

/-- `f1`: root scope holding only the import of `n`. -/
def c1Tab1 : SymTab :=
  { uri := "f1", scopes := [{ name := "", imports := [("n", [c1Import])] }] }

/-- `f2`: root scope defining the symbol `n`. -/
def c1Tab2 : SymTab :=
  { uri := "f2",
    scopes := [{ name := "",
                 symbols := [("n", [{ uri := "f2", name := "n", defLine := 3 }])] }] }

/-- The two-file workspace of `c1Graph`. -/
def c1Tabs : List (String × SymTab) := [("f1", c1Tab1), ("f2", c1Tab2)]

/-- An unqualified symbol reference to `n` at the root of `f1`. -/
def c1Ref : RefInfo := { uri := "f1", name := "n" }

/-- Two files, `f1` including `f2`. -/
def c2Graph : IncludesGraph := (⟨[]⟩ : IncludesGraph).updateIncludes "f1" ["f2"]

/-- `f1`: root scope defining symbol `n`, and the reference its definition
line contributes. -/
def c2Tab1 : SymTab :=
  { uri := "f1",
    scopes := [{ name := "",
                 symbols := [("n", [{ uri := "f1", name := "n", defLine := 1 }])] }],
    references := [{ uri := "f1", name := "n" }] }

/-- `f2`: root scope defining its own symbol `n`, and the reference its
definition line contributes. -/
def c2Tab2 : SymTab :=
  { uri := "f2",
    scopes := [{ name := "",
                 symbols := [("n", [{ uri := "f2", name := "n", defLine := 1 }])] }],
    references := [{ uri := "f2", name := "n" }] }

/-- The two-file workspace of `c2Graph`. -/
def c2Tabs : List (String × SymTab) := [("f1", c2Tab1), ("f2", c2Tab2)]

/-- The symbol `n` defined in `f2` — shadowed, in translation-unit order,
by the `n` of `f1`. -/
def c2Entity : STEntity := .sym { uri := "f2", name := "n", defLine := 1 }

/-- A single standalone file `f`. -/
def c9Graph : IncludesGraph := (⟨[]⟩ : IncludesGraph).updateIncludes "f" []

/-- `f`: defines symbol `n` at the root, imports `n`, and exports `n`. -/
def c9Tab : SymTab :=
  { uri := "f",
    scopes := [{ name := "",
                 symbols := [("n", [{ uri := "f", name := "n", defLine := 2 }])] }],
    imports := [{ uri := "f", name := "n", defLine := 1, defEndLine := 1,
                  defEndChar := 9 }] }

/-- The one-file workspace of `c9Graph`. -/
def c9Tabs : List (String × SymTab) := [("f", c9Tab)]

/-- The exports map after `f` registered its export of `n`. -/
def c9Em : ExportsMap :=
  (⟨[], []⟩ : ExportsMap).updateExports "f"
    [{ uri := "f", name := "n", defLine := 4 }]

/-! ## The document scanner's generic-line handler (`scanDocument`)

The embedding tracks the scanner's mutable variables (`currentScope`,
`currentLabel`, `pendingLabelKindSet`, `currentSegment`, `currentMacro`,
`nextAnonLabelIndex`) and the symbol table it fills.  Scopes and label
symbols are arenas (identity = index), since the scanner keeps mutating
handles to them.  Reference extraction is kept at call granularity: every
`addSingleReference` / `addReferences` invocation is logged with its exact
arguments, and likewise the import/export clause (whose body only consumes
the logged arguments); equal logs entail equal extracted references, which
is what the frame property needs.  `mnemonicData` (a JSON table loaded at
runtime) and `resolveIncludeUri` (filesystem-dependent) are parameters. -/

/-- JS `String.prototype.indexOf` with a string pattern: first occurrence
index, `-1` when absent. -/
def jsIndexOfStrAux (pat : List Char) : Nat → List Char → Int
  | i, [] => if pat.isPrefixOf ([] : List Char) then (i : Int) else -1
  | i, c :: rest =>
    if pat.isPrefixOf (c :: rest) then (i : Int)
    else jsIndexOfStrAux pat (i + 1) rest

/-- `text.indexOf(pat)`. -/
def jsIndexOfStr (s pat : String) : Int :=
  jsIndexOfStrAux pat.toList 0 s.toList

/-- `s.split(/\s+/)[0]`: the first word, or `""` when the string is empty
or starts with whitespace (a leading separator yields an empty first
element). -/
def jsSplitWsHead (s : String) : String :=
  match s.toList with
  | [] => ""
  | c :: _ => if isWs c then "" else String.mk (s.toList.takeWhile (fun x => ¬ isWs x))

/-- `s.startsWith(pre)`. -/
def jsStartsWith (s pre : String) : Bool :=
  pre.toList.isPrefixOf s.toList

/-- `s.toUpperCase()`. -/
def jsToUpper (s : String) : String :=
  String.mk (s.toList.map Char.toUpper)

/-- `s.replace(/"/g, '')`. -/
def stripQuotes (s : String) : String :=
  String.mk (s.toList.filter (fun c => c ≠ '"'))

/-- The `.define` name pattern's first character class `[a-zA-Z_@.]`. -/
def defineHeadChar (c : Char) : Bool :=
  c.isAlpha ∨ c = '_' ∨ c = '@' ∨ c = '.'

/-- The `.define` name pattern's tail character class `[a-zA-Z0-9_]`. -/
def defineTailChar (c : Char) : Bool :=
  c.isAlpha ∨ c.isDigit ∨ c = '_'

/-- First match of `/([a-zA-Z_@.][a-zA-Z0-9_]*)/` anywhere in the text. -/
def regexFirstIdent : List Char → Option (List Char)
  | [] => none
  | c :: rest =>
    if defineHeadChar c then some (c :: rest.takeWhile defineTailChar)
    else regexFirstIdent rest

/-- Match of `/^(['"])(.*)\1$/`: the text between one kind of quote at both
ends. -/
def matchQuoted (s : String) : Option String :=
  match s.toList with
  | [] => none
  | c :: rest =>
    if c = '"' ∨ c = '\'' then
      match rest.getLast? with
      | some d => if d = c then some (String.mk rest.dropLast) else none
      | none => none
    else none

/-- The label symbol kinds the generic-line handler assigns. -/
inductive LabelSymKind where
  | label
  | resLabel
  | dataLabel
  | stringLabel
deriving DecidableEq, Repr

/-- `MacroKind`. -/
inductive ScanMacroKind where
  | mac
  | define
deriving DecidableEq, Repr

/-- A scope object of the scanner's arena; `endPos` is the `range.end` the
closing directive mutates (characters as `Int`: JS `indexOf` can be -1). -/
structure ScanScope where
  name : String
  kind : STScopeKind := .scope
  parent : Option Nat := none
  startPos : Nat × Int := (0, 0)
  endPos : Nat × Int := (0, 0)
  segment : Option String := none
deriving DecidableEq, Repr

/-- A label symbol object of the scanner's arena (the `addSymbol` result
the scanner keeps as `currentLabel` and mutates). -/
structure ScanLabel where
  name : String
  scopeId : Nat
  kind : LabelSymKind := .label
  startPos : Nat × Int := (0, 0)
  endPos : Nat × Int := (0, 0)
  segment : String := ""
deriving DecidableEq, Repr

/-- A macro object. -/
structure ScanMacro where
  name : String
  kind : ScanMacroKind := .mac
  startPos : Nat × Int := (0, 0)
  endPos : Nat × Int := (0, 0)
deriving DecidableEq, Repr

/-- The effective calling entity passed to `addReferences`. -/
inductive CallingEnt where
  | lbl (id : Nat)
  | scp (id : Nat)
deriving DecidableEq, Repr

/-- One logged reference-extraction call. -/
inductive RefLogEntry where
  | single (context : RefContext) (line : Nat) (text : String) (index : Nat)
      (scopeId : Nat)
  | multi (line : Nat) (text : String) (index : Nat) (scopeId : Nat)
      (calling : Option CallingEnt)
  | impExp (cmd : String) (argsText : String) (argsIndex : Nat)
      (scopeId : Nat) (line : Nat)
deriving DecidableEq, Repr

/-- The scanner's state. -/
structure ScanState where
  scopes : List ScanScope := [{ name := "" }]
  currentScope : Nat := 0
  labels : List ScanLabel := []
  currentLabel : Option Nat := none
  pendingLabelKindSet : Bool := true
  macros : List (String × ScanMacro) := []
  currentMacro : Option String := none
  currentSegment : String := "CODE"
  nextAnonLabelIndex : Nat := 0
  anonymousLabelLines : List Nat := []
  anonymousLabelRefs : List (Nat × (Nat × Int) × (Nat × Int)) := []
  refLog : List RefLogEntry := []
  includedFiles : List String := []
deriving DecidableEq, Repr

/-- `addSingleReference`. -/
def addSingleRef (st : ScanState) (context : RefContext) (line : Nat)
    (text : String) (index : Nat) (scopeId : Nat) : ScanState :=
  { st with refLog := st.refLog ++ [.single context line text index scopeId] }

/-- `addReferences`. -/
def addRefs (st : ScanState) (line : Nat) (text : String) (index : Nat)
    (scopeId : Nat) (calling : Option CallingEnt) : ScanState :=
  { st with refLog := st.refLog ++ [.multi line text index scopeId calling] }

/-- The label-item block at the top of `maybeHandleGenericLine`: cheap
local labels are skipped, an empty label text records an anonymous label,
an ordinary label adds a reference and a `Label` symbol that becomes
`currentLabel`. -/
def handleLabelItem (st : ScanState) (line : Nat) (text : String) :
    Option LineItem → ScanState
  | none => st
  | some lab =>
    if lab.text.head? = some '@' then st
    else if lab.text.length = 0 then
      { st with
        anonymousLabelLines := st.anonymousLabelLines ++ [line],
        anonymousLabelRefs := st.anonymousLabelRefs ++
          [(st.nextAnonLabelIndex,
            (line, jsIndexOfStr text ":"),
            (line, jsIndexOfStr text ":" + 1))],
        nextAnonLabelIndex := st.nextAnonLabelIndex + 1 }
    else
      let st1 := addSingleRef st .symbol line (String.mk lab.text) lab.index
        st.currentScope
      let newLab : ScanLabel :=
        { name := String.mk lab.text, scopeId := st.currentScope,
          kind := .label,
          startPos := (line, (lab.index : Int)),
          endPos := (line, ((lab.index + lab.text.length : Nat) : Int)),
          segment := st.currentSegment }
      { st1 with
        labels := st1.labels ++ [newLab],
        currentLabel := some st1.labels.length,
        pendingLabelKindSet := false }

/-- The label-kind inference table of the fall-through block. -/
def inferLabelKind (cmd : String) (k : LabelSymKind) : LabelSymKind :=
  if cmd = ".res" ∨ cmd = ".tag" then .resLabel
  else if cmd = ".addr" ∨ cmd = ".align" ∨ cmd = ".bankbytes" ∨ cmd = ".byt"
      ∨ cmd = ".byte" ∨ cmd = ".dbyt" ∨ cmd = ".dword" ∨ cmd = ".faraddr"
      ∨ cmd = ".word" then .dataLabel
  else if cmd = ".asciiz" then .stringLabel
  else k

/-- The code after the `switch` (reached on fall-through and on the `break`
of a mismatched closing directive): extend `currentLabel`'s range and infer
its kind once, then extract references from the args (with the `.tag` and
`jsr`/`jmp` special cases). -/
def afterSwitch (st : ScanState) (line : Nat) (text : String) (cmd : String)
    (argsItem : Option LineItem) : ScanState × Bool :=
  let st1 :=
    match st.currentLabel with
    | none => st
    | some lid =>
      match st.labels.get? lid with
      | none => st
      | some lab0 =>
        let lab1 := { lab0 with
          endPos := (line, (text.length : Int) - 1) }
        let lab2 :=
          if st.pendingLabelKindSet then lab1
          else { lab1 with kind := inferLabelKind cmd lab1.kind }
        { st with
          labels := st.labels.set lid lab2,
          pendingLabelKindSet := true }
  match argsItem with
  | none => (st1, true)
  | some a =>
    if cmd = ".tag" then
      let structName := jsSplitWsHead (String.mk a.text)
      if structName = "" then (st1, true)
      else (addSingleRef st1 .scope line structName a.index st1.currentScope,
        true)
    else
      let calling : Option CallingEnt :=
        if cmd = "jsr" ∨ cmd = "jmp" then
          match st1.currentLabel with
          | some lid => some (.lbl lid)
          | none =>
            match st1.scopes.get? st1.currentScope with
            | some d => if d.kind = .proc then some (.scp st1.currentScope)
              else none
            | none => none
        else none
      (addRefs st1 line (String.mk a.text) a.index st1.currentScope calling,
        true)

/-- The `.endproc` / `.endscope` case (`want` = `Proc` resp. `Scope`):
clear `currentLabel` first; at the root or on a kind mismatch `break` to
the fall-through code; otherwise stamp the scope's end and pop it. -/
def closeScopeIfKind (st : ScanState) (line : Nat) (text : String)
    (cmd : String) (argsItem : Option LineItem) (want : STScopeKind) :
    ScanState × Bool :=
  let st1 := { st with currentLabel := none }
  match st1.scopes.get? st1.currentScope with
  | none => afterSwitch st1 line text cmd argsItem
  | some d =>
    match d.parent with
    | none => afterSwitch st1 line text cmd argsItem
    | some pid =>
      if d.kind = want then
        ({ st1 with
            scopes := st1.scopes.set st1.currentScope
              { d with endPos := (line, jsIndexOfStr text ".end") },
            currentScope := pid }, true)
      else afterSwitch st1 line text cmd argsItem

/-- The `.proc`/`.scope`/`.struct`/`.union`/`.enum` case: clear
`currentLabel`, name the scope (anonymous when no args), add the scope
reference, push the child scope and enter it. -/
def openScopeCase (st : ScanState) (line : Nat) (cmd : String)
    (argsText : String) (argsIndex : Nat) : ScanState × Bool :=
  let st1 := { st with currentLabel := none }
  let kind : STScopeKind :=
    if cmd = ".proc" then .proc
    else if cmd = ".struct" then .struct
    else if cmd = ".union" then .union
    else if cmd = ".enum" then .enum
    else .scope
  let p : ScanState × String :=
    if argsText ≠ "" then
      (addSingleRef st1 .scope line argsText argsIndex st1.currentScope,
        argsText)
    else (st1, "<anon line " ++ toString (line + 1) ++ ">")
  let newScope : ScanScope :=
    { name := p.2, kind := kind, parent := some p.1.currentScope,
      startPos := (line, (argsIndex : Int)),
      endPos := (line, ((argsIndex + p.2.length : Nat) : Int)),
      segment := if kind = .proc then some p.1.currentSegment else none }
  ({ p.1 with
      scopes := p.1.scopes ++ [newScope],
      currentScope := p.1.scopes.length }, true)

/-- The `.macro`/`.mac` case. -/
def macroCase (st : ScanState) (line : Nat) (argsItem : Option LineItem)
    (argsText : String) (argsIndex : Nat) : ScanState × Bool :=
  let st1 := { st with currentLabel := none }
  match argsItem with
  | none => (st1, true)
  | some a =>
    let name := jsSplitWsHead (String.mk a.text)
    if name = "" then (st1, true)
    else
      let st2 := addSingleRef st1 .macroCtx line name argsIndex
        st1.currentScope
      match jsMapGet st2.macros name with
      | some _ => (st2, true)
      | none =>
        let m : ScanMacro :=
          { name := name, kind := .mac,
            startPos := (line, (argsIndex : Int)),
            endPos := (line, ((argsIndex + argsText.length : Nat) : Int)) }
        ({ st2 with
            macros := jsMapSet st2.macros name m,
            currentMacro := some name }, true)

/-- The `.define` case (does not set `currentMacro`). -/
def defineCase (st : ScanState) (line : Nat) (argsText : String)
    (argsIndex : Nat) : ScanState × Bool :=
  let st1 := { st with currentLabel := none }
  match regexFirstIdent argsText.toList with
  | none => (st1, true)
  | some nameL =>
    let name := String.mk nameL
    let st2 := addSingleRef st1 .macroCtx line name argsIndex
      st1.currentScope
    match jsMapGet st2.macros name with
    | some _ => (st2, true)
    | none =>
      let m : ScanMacro :=
        { name := name, kind := .define,
          startPos := (line, (argsIndex : Int)),
          endPos := (line, ((argsIndex + name.length : Nat) : Int)) }
      ({ st2 with macros := jsMapSet st2.macros name m }, true)

/-- The segment cases. -/
def segmentCase (st : ScanState) (cmd argsText : String) : ScanState × Bool :=
  ({ st with currentSegment :=
      if cmd = ".segment" then stripQuotes argsText
      else jsToUpper (cmd.drop 1) }, true)

/-- The import/export/global case, at call-log granularity. -/
def impExpCase (st : ScanState) (line : Nat) (cmd : String)
    (argsItem : Option LineItem) : ScanState × Bool :=
  match argsItem with
  | none => (st, true)
  | some a =>
    ({ st with refLog := st.refLog
        ++ [.impExp cmd (String.mk a.text) a.index st.currentScope line] },
      true)

/-- The `.include` case. -/
def includeCase (rinc : String → Option String) (st : ScanState)
    (argsText : String) : ScanState × Bool :=
  match matchQuoted argsText with
  | none => (st, true)
  | some filename =>
    let st1 :=
      match rinc filename with
      | some target =>
        { st with includedFiles := st.includedFiles ++ [target] }
      | none => st
    ({ st1 with currentSegment := "segment from " ++ filename }, true)

/-- `maybeHandleGenericLine`. -/
def maybeHandleGenericLine (mnemo : String → Bool)
    (rinc : String → Option String) (st : ScanState) (line : Nat)
    (text : String) : ScanState × Bool :=
  let pl := parseLine text.toList
  let st1 := handleLabelItem st line text pl.label?
  match pl.command? with
  | none => (st1, true)
  | some cmdItem =>
    let cmd := String.mk (cmdItem.text.map Char.toLower)
    let argsText := match pl.args? with
      | some a => String.mk a.text
      | none => ""
    let argsIndex := match pl.args? with
      | some a => if a.index = 0 then cmdItem.index + cmdItem.text.length
        else a.index
      | none => cmdItem.index + cmdItem.text.length
    let st2 :=
      if ¬ jsStartsWith cmd "." ∧ ¬ mnemo (jsToUpper cmd) then
        addSingleRef st1 .macroCtx line (String.mk cmdItem.text)
          cmdItem.index 0
      else st1
    if cmd = ".proc" ∨ cmd = ".scope" ∨ cmd = ".struct" ∨ cmd = ".union"
        ∨ cmd = ".enum" then
      openScopeCase st2 line cmd argsText argsIndex
    else if cmd = ".endproc" then
      closeScopeIfKind st2 line text cmd pl.args? .proc
    else if cmd = ".endscope" then
      closeScopeIfKind st2 line text cmd pl.args? .scope
    else if cmd = ".macro" ∨ cmd = ".mac" then
      macroCase st2 line pl.args? argsText argsIndex
    else if cmd = ".define" then
      defineCase st2 line argsText argsIndex
    else if cmd = ".segment" ∨ cmd = ".code" ∨ cmd = ".data" ∨ cmd = ".bss"
        ∨ cmd = ".zeropage" ∨ cmd = ".rodata" then
      segmentCase st2 cmd argsText
    else if cmd = ".import" ∨ cmd = ".importzp" ∨ cmd = ".export"
        ∨ cmd = ".exportzp" ∨ cmd = ".global" ∨ cmd = ".globalzp" then
      impExpCase st2 line cmd pl.args?
    else if cmd = ".include" then
      includeCase rinc st2 argsText
    else
      afterSwitch st2 line text cmd pl.args?

/-- A scanner state inside a plain (non-proc) named scope with a current
label pending kind inference. -/
def c8St : ScanState :=
  { scopes := [ { name := "" },
                { name := "s", kind := .scope, parent := some 0 } ],
    currentScope := 1,
    labels := [ { name := "lbl", scopeId := 1, startPos := (4, 0),
                  endPos := (4, 3), segment := "CODE" } ],
    currentLabel := some 0,
    pendingLabelKindSet := false }

/-- A scanner state at the root scope with a current label. -/
def c8StRoot : ScanState :=
  { scopes := [ { name := "" } ],
    currentScope := 0,
    labels := [ { name := "lbl", scopeId := 0, startPos := (4, 0),
                  endPos := (4, 3), segment := "CODE" } ],
    currentLabel := some 0,
    pendingLabelKindSet := false }

/-! ## Lemmas about the string primitives -/

theorem jsIndexOf_spec {l : List Char} {c : Char} {i : Nat}
    (h : jsIndexOf l c = some i) :
    i < l.length ∧ l.get? i = some c ∧ ∀ j, j < i → l.get? j ≠ some c := by
  induction l generalizing i with
  | nil => simp [jsIndexOf] at h
  | cons a l ih =>
    rw [jsIndexOf] at h
    split at h
    · next hac =>
      cases h
      subst hac
      exact ⟨Nat.succ_pos _, rfl, fun j hj => absurd hj (Nat.not_lt_zero j)⟩
    · next hac =>
      cases hi : jsIndexOf l c with
      | none => rw [hi] at h; simp at h
      | some i' =>
        rw [hi] at h
        simp only [Option.map_some', Option.some.injEq] at h
        subst h
        obtain ⟨h1, h2, h3⟩ := ih hi
        refine ⟨Nat.succ_lt_succ h1, h2, fun j hj => ?_⟩
        cases j with
        | zero =>
          simp only [List.get?_cons_zero, ne_eq, Option.some.injEq]
          exact fun hc => hac hc
        | succ j => exact h3 j (Nat.lt_of_succ_lt_succ hj)

theorem jsIndexOf_eq_none {l : List Char} {c : Char}
    (h : jsIndexOf l c = none) : ∀ j, l.get? j ≠ some c := by
  induction l with
  | nil => intro j; simp
  | cons a l ih =>
    rw [jsIndexOf] at h
    split at h
    · exact absurd h (by simp)
    · next hac =>
      intro j
      cases j with
      | zero =>
        simp only [List.get?_cons_zero, ne_eq, Option.some.injEq]
        exact fun hc => hac hc
      | succ j =>
        simp only [Option.map_eq_none'] at h
        exact ih h j

theorem dropWhile_eq_drop (p : Char → Bool) (l : List Char) :
    l.dropWhile p = l.drop (l.length - (l.dropWhile p).length) := by
  induction l with
  | nil => rfl
  | cons a l ih =>
    by_cases h : p a
    · have hle : (l.dropWhile p).length ≤ l.length :=
        (List.dropWhile_suffix p).length_le
      have harith : (a :: l).length - (l.dropWhile p).length
          = (l.length - (l.dropWhile p).length) + 1 := by
        simp only [List.length_cons]
        omega
      rw [List.dropWhile_cons_of_pos h, harith, List.drop_succ_cons]
      exact ih
    · rw [List.dropWhile_cons_of_neg h]
      simp

theorem getNextRest_spec (L rest : List Char) (off start : Nat)
    (hrest : rest = L.drop off) (hstart : start ≤ rest.length) :
    (getNextRest rest off start).1 = L.drop ((getNextRest rest off start).2)
    ∧ ((getNextRest rest off start).1).dropWhile isWs
        = (getNextRest rest off start).1 := by
  unfold getNextRest
  simp only
  refine ⟨?_, List.dropWhile_idempotent _ _⟩
  rw [min_eq_left hstart]
  conv_lhs => rw [dropWhile_eq_drop isWs (rest.drop start)]
  rw [hrest, List.drop_drop, List.drop_drop]
  congr 1
  omega

theorem dropWhile_take {p : Char → Bool} {l : List Char}
    (h : l.dropWhile p = l) (n : Nat) :
    (l.take n).dropWhile p = l.take n := by
  cases l with
  | nil => simp
  | cons a l =>
    cases n with
    | zero => simp
    | succ n =>
      have ha : ¬ p a := by
        intro hpa
        rw [List.dropWhile_cons_of_pos hpa] at h
        have := congrArg List.length h
        have hle : (l.dropWhile p).length ≤ l.length :=
          (List.dropWhile_suffix p).length_le
        simp at this
        omega
      rw [List.take_succ_cons, List.dropWhile_cons_of_neg ha]

theorem jsTrimRight_eq_rdropWhile (l : List Char) :
    jsTrimRight l = l.rdropWhile isWs := rfl

theorem jsTrimRight_front (l : List Char) : jsTrimRight l <+: l := by
  rw [jsTrimRight_eq_rdropWhile]
  exact List.rdropWhile_prefix _ _

theorem jsTrimRight_idem (l : List Char) :
    jsTrimRight (jsTrimRight l) = jsTrimRight l := by
  rw [jsTrimRight_eq_rdropWhile, jsTrimRight_eq_rdropWhile]
  exact List.rdropWhile_idempotent _ _

theorem jsTrim_of_leftTrimmed {l : List Char} (h : l.dropWhile isWs = l) :
    jsTrim l = jsTrimRight l := by
  unfold jsTrim jsTrimLeft
  rw [h]

theorem prefix_take_eq {pfx l : List Char} (h : pfx <+: l) :
    l.take pfx.length = pfx := (List.prefix_iff_eq_take.mp h).symm

/-! ## The line lexer: item exactness -/

theorem parseLineLabel_spec (L rest1 : List Char) (off1 : Nat)
    (hrest : rest1 = L.drop off1) (htrim : rest1.dropWhile isWs = rest1) :
    ((parseLineLabel rest1 off1).2.1 = L.drop (parseLineLabel rest1 off1).2.2
      ∧ ((parseLineLabel rest1 off1).2.1).dropWhile isWs
          = (parseLineLabel rest1 off1).2.1)
    ∧ ∀ it, (parseLineLabel rest1 off1).1 = some it →
        it.index = off1 ∧ it.text <+: rest1 ∧ it.text.any isWs = false := by
  unfold parseLineLabel
  cases hidx : jsIndexOf rest1 ':' with
  | none => exact ⟨⟨hrest, htrim⟩, by intro it h; simp at h⟩
  | some colonIndex =>
    simp only
    by_cases hanon : isAnonColonNext rest1 colonIndex
    · rw [if_pos hanon]
      exact ⟨⟨hrest, htrim⟩, by intro it h; simp at h⟩
    · rw [if_neg hanon]
      by_cases hws : (jsTrim (rest1.take colonIndex)).any isWs
      · rw [if_pos hws]
        exact ⟨⟨hrest, htrim⟩, by intro it h; simp at h⟩
      · rw [if_neg hws]
        have hlt : colonIndex < rest1.length := (jsIndexOf_spec hidx).1
        have hstart : colonIndex + 1 ≤ rest1.length := hlt
        have hg := getNextRest_spec L rest1 off1 (colonIndex + 1) hrest hstart
        refine ⟨hg, ?_⟩
        intro it h
        simp only [Option.some.injEq] at h
        subst h
        refine ⟨rfl, ?_, by simpa using hws⟩
        have h1 : (rest1.take colonIndex).dropWhile isWs = rest1.take colonIndex :=
          dropWhile_take htrim colonIndex
        rw [jsTrim_of_leftTrimmed h1]
        exact (jsTrimRight_front _).trans (List.take_prefix _ _)

theorem parseLineCommand_spec (L rest2 : List Char) (off2 : Nat)
    (hrest : rest2 = L.drop off2) (htrim : rest2.dropWhile isWs = rest2) :
    (∀ it, (parseLineCommand rest2 off2).1 = some it →
        it.index = off2 ∧ it.text <+: rest2)
    ∧ (∀ it, (parseLineCommand rest2 off2).2 = some it →
        it.text <+: L.drop it.index ∧ jsTrimRight it.text = it.text) := by
  unfold parseLineCommand
  have hcmdpfx : (jsTrim rest2).takeWhile (fun c => !isWs c) <+: rest2 := by
    rw [jsTrim_of_leftTrimmed htrim]
    exact (List.takeWhile_prefix _).trans (jsTrimRight_front _)
  cases hct : (jsTrim rest2).takeWhile (fun c => !isWs c) with
  | nil => exact ⟨by intro it h; simp at h, by intro it h; simp at h⟩
  | cons c0 cs =>
    simp only
    constructor
    · intro it h
      simp only [Option.some.injEq] at h
      subst h
      exact ⟨rfl, hct ▸ hcmdpfx⟩
    · intro it h
      have hstart : (c0 :: cs).length ≤ rest2.length := by
        have := (hct ▸ hcmdpfx).length_le
        exact this
      have hg := getNextRest_spec L rest2 off2 (c0 :: cs).length hrest hstart
      by_cases hlen : 0 < (getNextRest rest2 off2 (c0 :: cs).length).1.length
      · rw [if_pos hlen] at h
        simp only [Option.some.injEq] at h
        subst h
        simp only
        refine ⟨?_, jsTrimRight_idem _⟩
        rw [← hg.1]
        exact jsTrimRight_front _
      · rw [if_neg hlen] at h
        simp at h

theorem stripped_drop_front (line0 L : List Char) (off : Nat)
    (h : L = line0 ∨ ∃ i, L = line0.take i) : L.drop off <+: line0.drop off := by
  rcases h with h | ⟨i, h⟩ <;> subst h
  · exact List.prefix_refl _
  · rw [List.drop_take]
    exact List.take_prefix _ _

theorem parseLine_label?_eq (line0 : List Char) :
    (parseLine line0).label?
      = (parseLineLabel (getNextRest (parseLineStrip line0) 0 0).1
          (getNextRest (parseLineStrip line0) 0 0).2).1 := rfl

theorem parseLine_command?_eq (line0 : List Char) :
    (parseLine line0).command?
      = (parseLineCommand
          ((parseLineLabel (getNextRest (parseLineStrip line0) 0 0).1
            (getNextRest (parseLineStrip line0) 0 0).2).2.1)
          ((parseLineLabel (getNextRest (parseLineStrip line0) 0 0).1
            (getNextRest (parseLineStrip line0) 0 0).2).2.2)).1 := rfl

theorem parseLine_args?_eq (line0 : List Char) :
    (parseLine line0).args?
      = (parseLineCommand
          ((parseLineLabel (getNextRest (parseLineStrip line0) 0 0).1
            (getNextRest (parseLineStrip line0) 0 0).2).2.1)
          ((parseLineLabel (getNextRest (parseLineStrip line0) 0 0).1
            (getNextRest (parseLineStrip line0) 0 0).2).2.2)).2 := rfl

theorem parseLine_comment?_eq (line0 : List Char) :
    (parseLine line0).comment? = parseLineComment line0 := rfl

theorem parseLineStrip_cases (line0 : List Char) :
    parseLineStrip line0 = line0 ∨ ∃ i, parseLineStrip line0 = line0.take i := by
  unfold parseLineStrip
  cases jsIndexOf line0 ';' with
  | none => exact Or.inl rfl
  | some i => exact Or.inr ⟨i, rfl⟩

/-- C10: every item returned by the line lexer reports an exact byte offset —
the item's text is the substring of the original line at the item's index
with the item's text's length; a returned label contains no whitespace at
all (in particular no interior whitespace), and the args text is
right-trimmed. -/
theorem parseLine_item_offsets (line0 : List Char) :
    (∀ it, (parseLine line0).label? = some it →
        (line0.drop it.index).take it.text.length = it.text
        ∧ ∀ c ∈ it.text, isWs c = false)
  ∧ (∀ it, (parseLine line0).command? = some it →
        (line0.drop it.index).take it.text.length = it.text)
  ∧ (∀ it, (parseLine line0).args? = some it →
        (line0.drop it.index).take it.text.length = it.text
        ∧ jsTrimRight it.text = it.text)
  ∧ (∀ it, (parseLine line0).comment? = some it →
        (line0.drop it.index).take it.text.length = it.text) := by
  have hL := parseLineStrip_cases line0
  set L := parseLineStrip line0 with hLdef
  have hg1 := getNextRest_spec L L 0 0 (List.drop_zero L).symm (Nat.zero_le _)
  have hlab := parseLineLabel_spec L (getNextRest L 0 0).1 (getNextRest L 0 0).2
    hg1.1 hg1.2
  have hcmd := parseLineCommand_spec L
    ((parseLineLabel (getNextRest L 0 0).1 (getNextRest L 0 0).2).2.1)
    ((parseLineLabel (getNextRest L 0 0).1 (getNextRest L 0 0).2).2.2)
    hlab.1.1 hlab.1.2
  refine ⟨?_, ?_, ?_, ?_⟩
  · intro it h
    rw [parseLine_label?_eq] at h
    obtain ⟨hidx, hpfx, hws⟩ := hlab.2 it h
    rw [hg1.1] at hpfx
    rw [← hidx] at hpfx
    have hpfx2 : it.text <+: line0.drop it.index :=
      hpfx.trans (stripped_drop_front line0 L _ hL)
    refine ⟨prefix_take_eq hpfx2, ?_⟩
    intro c hc
    by_contra hcw
    have : it.text.any isWs = true := by
      rw [List.any_eq_true]
      exact ⟨c, hc, by simpa using hcw⟩
    rw [hws] at this
    exact Bool.false_ne_true this
  · intro it h
    rw [parseLine_command?_eq] at h
    obtain ⟨hidx, hpfx⟩ := hcmd.1 it h
    rw [hlab.1.1] at hpfx
    rw [← hidx] at hpfx
    exact prefix_take_eq (hpfx.trans (stripped_drop_front line0 L _ hL))
  · intro it h
    rw [parseLine_args?_eq] at h
    obtain ⟨hpfx, hrt⟩ := hcmd.2 it h
    have hpfx2 : it.text <+: line0.drop it.index :=
      hpfx.trans (stripped_drop_front line0 L _ hL)
    exact ⟨prefix_take_eq hpfx2, hrt⟩
  · intro it h
    rw [parseLine_comment?_eq] at h
    unfold parseLineComment at h
    cases hsemi : jsIndexOf line0 ';' with
    | none => rw [hsemi] at h; simp at h
    | some i =>
      rw [hsemi] at h
      simp only [Option.some.injEq] at h
      subst h
      simp

/-- Witness for `parseLine_item_offsets` at the concrete line
`foo: lda #1 ; hi`: the label and args items match their substrings. -/
theorem parseLine_item_offsets_wit :
    ((("foo: lda #1 ; hi".toList).drop 0).take 3 = "foo".toList
      ∧ ∀ c ∈ "foo".toList, isWs c = false)
    ∧ ((("foo: lda #1 ; hi".toList).drop 9).take 2 = "#1".toList
      ∧ jsTrimRight "#1".toList = "#1".toList) := by
  have h := parseLine_item_offsets ("foo: lda #1 ; hi".toList)
  exact ⟨h.1 ⟨"foo".toList, 0⟩ (by decide), h.2.2.1 ⟨"#1".toList, 9⟩ (by decide)⟩

/-- C7 counterexample: on the line `lda "a;b"` the only `;` sits inside a
string literal, so the spec's comment start does not exist — yet the lexer
starts the comment exactly there and the text after the `;` is not lexed as
args (the args item is cut short at the `;`). -/
theorem parseLine_comment_in_string_cex :
    specCommentStart ("lda \"a;b\"".toList) = none
    ∧ (parseLine ("lda \"a;b\"".toList)).comment? = some ⟨";b\"".toList, 6⟩
    ∧ (parseLine ("lda \"a;b\"".toList)).args? = some ⟨"\"a".toList, 4⟩ := by
  exact ⟨by decide, by decide, by decide⟩

/-- C7 (amended): the comment item begins at the first `;` anywhere on the
line — string and character literals are **not** respected — and extends to
the end of the line; a line without any `;` has no comment item. -/
theorem parseLine_comment_first_semicolon (line0 : List Char) :
    (∀ it, (parseLine line0).comment? = some it →
        line0.get? it.index = some ';'
        ∧ (∀ j, j < it.index → line0.get? j ≠ some ';')
        ∧ it.text = line0.drop it.index)
    ∧ ((parseLine line0).comment? = none → ∀ j, line0.get? j ≠ some ';') := by
  rw [parseLine_comment?_eq]
  unfold parseLineComment
  cases hsemi : jsIndexOf line0 ';' with
  | none =>
    exact ⟨fun it h => by simp at h, fun _ => jsIndexOf_eq_none hsemi⟩
  | some i =>
    obtain ⟨h1, h2, h3⟩ := jsIndexOf_spec hsemi
    refine ⟨fun it h => ?_, fun hh => by simp at hh⟩
    simp only [Option.some.injEq] at h
    subst h
    exact ⟨h2, h3, rfl⟩

/-- Witness for `parseLine_comment_first_semicolon` at the line `a;b`. -/
theorem parseLine_comment_first_semicolon_wit :
    "a;b".toList.get? 1 = some ';'
    ∧ (∀ j, j < 1 → "a;b".toList.get? j ≠ some ';')
    ∧ ";b".toList = "a;b".toList.drop 1 :=
  (parseLine_comment_first_semicolon ("a;b".toList)).1 ⟨";b".toList, 1⟩ (by decide)

/-! ## Anonymous labels: binary search correctness and resolution -/

theorem pairwise_get?_lt {a : List Nat} (hs : a.Pairwise (· < ·)) {i j u v : Nat}
    (hij : i < j) (hu : a.get? i = some u) (hv : a.get? j = some v) : u < v := by
  obtain ⟨hjlen, hvget⟩ := List.get?_eq_some.mp hv
  obtain ⟨hilen, huget⟩ := List.get?_eq_some.mp hu
  have h := List.pairwise_iff_get.mp hs ⟨i, hilen⟩ ⟨j, hjlen⟩ (Fin.mk_lt_mk.mpr hij)
  rw [huget, hvget] at h
  exact h

theorem countP_le_split (a : List Nat) (L : Nat) :
    ∀ k, k ≤ a.length →
      (∀ j v, j < k → a.get? j = some v → v ≤ L) →
      (∀ j v, k ≤ j → a.get? j = some v → L < v) →
      a.countP (fun x => x ≤ L) = k := by
  induction a with
  | nil =>
    intro k hk _ _
    have : k = 0 := Nat.le_zero.mp hk
    subst this
    rfl
  | cons x xs ih =>
    intro k hk h1 h2
    cases k with
    | zero =>
      have hx : L < x := h2 0 x (Nat.zero_le _) rfl
      rw [List.countP_cons_of_neg _ _ (by simpa using Nat.not_le.mpr hx)]
      rw [List.countP_eq_zero]
      intro y hy
      obtain ⟨n, hn⟩ := List.mem_iff_get?.mp hy
      have := h2 (n + 1) y (Nat.zero_le _) (by simpa using hn)
      simpa using Nat.not_le.mpr this
    | succ k' =>
      have hx : x ≤ L := h1 0 x (Nat.succ_pos _) rfl
      rw [List.countP_cons_of_pos _ _ (by simpa using hx)]
      have hxs : xs.countP (fun x => x ≤ L) = k' := by
        apply ih k' (by simpa using hk)
        · intro j v hj hjv
          exact h1 (j + 1) v (Nat.succ_lt_succ hj) (by simpa using hjv)
        · intro j v hj hjv
          exact h2 (j + 1) v (Nat.succ_le_succ hj) (by simpa using hjv)
      omega

theorem findPrevAnonAux_correct (a : List Nat) (L : Nat)
    (hs : a.Pairwise (· < ·)) :
    ∀ fuel start stop, stop ≤ a.length → start ≤ stop → stop - start < fuel →
      (∀ j v, j < start → a.get? j = some v → v ≤ L) →
      (∀ j v, stop ≤ j → a.get? j = some v → L < v) →
      findPrevAnonAux a L fuel start stop ((start : Int) - 1) = specPrevIndex a L := by
  intro fuel
  induction fuel with
  | zero =>
    intro start stop _ _ hfuel _ _
    omega
  | succ fuel ih =>
    intro start stop hstop hss hfuel hpre hpost
    rw [findPrevAnonAux]
    by_cases hlt : start < stop
    · rw [if_pos hlt]
      have hsi_lt : (stop - start) / 2 + start < stop := by omega
      have hsi_len : (stop - start) / 2 + start < a.length := by omega
      obtain ⟨cand, hcq⟩ : ∃ v, a.get? ((stop - start) / 2 + start) = some v := by
        cases hq : a.get? ((stop - start) / 2 + start) with
        | none => exact absurd (List.get?_eq_none.mp hq) (by omega)
        | some v => exact ⟨v, rfl⟩
      have hgd : a.getD ((stop - start) / 2 + start) 0 = cand := by
        rw [List.getD_eq_getD_get?, hcq]
        rfl
      rw [hgd]
      by_cases heq : L = cand
      · rw [if_pos heq]
        unfold specPrevIndex
        have hcount : a.countP (fun x => x ≤ L) = (stop - start) / 2 + start + 1 := by
          apply countP_le_split a L _ (by omega)
          · intro j v hj hjv
            rcases Nat.lt_or_ge j ((stop - start) / 2 + start) with hj2 | hj2
            · exact Nat.le_of_lt (heq ▸ pairwise_get?_lt hs hj2 hjv hcq)
            · have : j = (stop - start) / 2 + start := by omega
              subst this
              rw [hjv] at hcq
              cases hcq
              omega
          · intro j v hj hjv
            exact heq ▸ pairwise_get?_lt hs (by omega) hcq hjv
        rw [hcount]
        push_cast
        ring
      · rw [if_neg heq]
        by_cases hgt : L > cand
        · rw [if_pos hgt]
          have hrw : (((stop - start) / 2 + start : Nat) : Int)
              = (((stop - start) / 2 + start + 1 : Nat) : Int) - 1 := by
            omega
          rw [hrw]
          apply ih _ stop hstop (by omega) (by omega) ?_ hpost
          intro j v hj hjv
          rcases Nat.lt_or_ge j ((stop - start) / 2 + start) with hj2 | hj2
          · exact Nat.le_of_lt (Nat.lt_trans (pairwise_get?_lt hs hj2 hjv hcq) hgt)
          · have : j = (stop - start) / 2 + start := by omega
            subst this
            rw [hjv] at hcq
            cases hcq
            omega
        · rw [if_neg hgt]
          apply ih start _ (by omega) (by omega) (by omega) hpre ?_
          intro j v hj hjv
          rcases Nat.lt_or_ge ((stop - start) / 2 + start) j with hj2 | hj2
          · exact Nat.lt_trans (by omega) (pairwise_get?_lt hs hj2 hcq hjv)
          · have : j = (stop - start) / 2 + start := by omega
            subst this
            rw [hjv] at hcq
            cases hcq
            omega
    · rw [if_neg hlt]
      have hse : start = stop := by omega
      unfold specPrevIndex
      rw [countP_le_split a L start (by omega) hpre (hse ▸ hpost)]

theorem findPreviousAnonymousLabelIndex_correct (a : List Nat) (L : Nat)
    (hs : a.Pairwise (· < ·)) :
    findPreviousAnonymousLabelIndex a L = specPrevIndex a L := by
  unfold findPreviousAnonymousLabelIndex
  have h := findPrevAnonAux_correct a L hs (a.length + 1) 0 a.length
    (Nat.le_refl _) (Nat.zero_le _) (by omega)
    (fun j v hj _ => absurd hj (Nat.not_lt_zero j))
    (fun j v hj hjv => absurd (List.get?_eq_some.mp hjv).1 (by omega))
  simpa using h

/-- C6 counterexample: for the mixed token `:+-` the spec's count-based
offset is `1 - 1 + 1 = 1`, putting the target at index `3` of
`[0, 1, 2, 10]` (from line 3 the previous label has index 2) — in range,
with recorded line 10 — but the code's offset is `2` (first character `+`,
length 2), so resolution returns no result. -/
theorem anonLabel_mixed_token_cex :
    getAnonymousLabelDefLine [0, 1, 2, 10] 3 (":+-".toList) = none
    ∧ specPrevIndex [0, 1, 2, 10] 3 + specAnonRefOffset ":+-".toList = 3
    ∧ ((0 : Int) ≤ 3 ∧ (3 : Int) < (([0, 1, 2, 10] : List Nat).length : Int))
    ∧ ([0, 1, 2, 10] : List Nat).get? 3 = some 10 := by decide

/-- C6 (amended): for a reference token on line `L` of a file whose recorded
anonymous-label lines are strictly increasing, resolution returns the
`(i+k)`-th recorded line, where `i` is the index of the last anonymous label
at line ≤ `L` (−1 when there is none) and `k` is the token's offset as the
code computes it — the token's length if it starts with `+`/`>`, otherwise
one minus its length (for homogeneous tokens this agrees with the spec's
count formula) — and it returns no result iff `i+k` is out of range. -/
theorem getAnonymousLabelDefLine_spec (a : List Nat) (L : Nat) (tok : List Char)
    (hs : a.Pairwise (· < ·)) :
    (∀ t, getAnonymousLabelDefLine a L tok = some t →
        ∃ idx : Nat,
          (idx : Int) = specPrevIndex a L + getAnonLabelRefOffsetFromPreviousLabel tok
          ∧ a.get? idx = some t)
    ∧ (getAnonymousLabelDefLine a L tok = none ↔
        (specPrevIndex a L + getAnonLabelRefOffsetFromPreviousLabel tok < 0
          ∨ (a.length : Int) ≤ specPrevIndex a L + getAnonLabelRefOffsetFromPreviousLabel tok)) := by
  unfold getAnonymousLabelDefLine getAnonymousLabelIndexOfRef
  rw [findPreviousAnonymousLabelIndex_correct a L hs]
  by_cases hr : specPrevIndex a L + getAnonLabelRefOffsetFromPreviousLabel tok < 0
      ∨ (a.length : Int) ≤ specPrevIndex a L + getAnonLabelRefOffsetFromPreviousLabel tok
  · rw [if_pos hr, if_neg (by norm_num : ¬ (0 : Int) ≤ -1)]
    exact ⟨fun t ht => Option.noConfusion ht, iff_of_true rfl hr⟩
  · rw [if_neg hr]
    push_neg at hr
    obtain ⟨h0, hlen⟩ := hr
    rw [if_pos h0]
    constructor
    · intro t ht
      refine ⟨(specPrevIndex a L + getAnonLabelRefOffsetFromPreviousLabel tok).toNat,
        by omega, ht⟩
    · refine iff_of_false ?_ (by push_neg; exact ⟨h0, hlen⟩)
      intro hnone
      have := List.get?_eq_none.mp hnone
      omega

/-- Witness for `getAnonymousLabelDefLine_spec`: lines `[0, 2]`, token `:-`
on line 3 resolves to index `1 + 0 = 1`, the label on line 2. -/
theorem getAnonymousLabelDefLine_spec_wit :
    ∃ idx : Nat,
      (idx : Int) = specPrevIndex [0, 2] 3 + getAnonLabelRefOffsetFromPreviousLabel (":-".toList)
      ∧ ([0, 2] : List Nat).get? idx = some 2 :=
  (getAnonymousLabelDefLine_spec [0, 2] 3 (":-".toList) (by decide)).1 2 (by decide)

/-! ## Exports map: the duplicate-base-name leak -/

/-- C3: evaluation at the failing input.  With `X = [e1, e2]`, two exports
from file `f` sharing the base name `n`, `updateExports f X` pushes both
onto the global stack but records only `e2` in the per-URI map; the
subsequent `updateExports f []` removes only `e2`, so `e1 ∈ X \ Y` survives
in the stack — `updateExports` does not replace the old exports as its
contract states. -/
theorem updateExports_duplicate_name_leak :
    (((⟨[], []⟩ : ExportsMap).updateExports "f"
        [⟨"f", .exported, "n", 1, none⟩, ⟨"f", .exported, "n", 2, none⟩]).updateExports
        "f" []).get "n" = [⟨"f", .exported, "n", 1, none⟩] := by decide

/-! ## Includes graph: primitive map lemmas -/

theorem jsMapGet_append {α : Type} (l1 l2 : List (String × α)) (k : String) :
    jsMapGet (l1 ++ l2) k
      = match jsMapGet l1 k with
        | some v => some v
        | none => jsMapGet l2 k := by
  induction l1 with
  | nil => simp [jsMapGet]
  | cons p rest ih =>
    obtain ⟨k', v⟩ := p
    by_cases h : k' = k
    · simp [jsMapGet, h]
    · simpa [jsMapGet, h] using ih

theorem jsMapGet_mem {α : Type} {l : List (String × α)} {k : String} {v : α}
    (h : jsMapGet l k = some v) : (k, v) ∈ l := by
  induction l with
  | nil => simp [jsMapGet] at h
  | cons p rest ih =>
    obtain ⟨k', v'⟩ := p
    rw [jsMapGet] at h
    split at h
    · next heq =>
      cases h
      subst heq
      exact List.mem_cons_self _ _
    · exact List.mem_cons_of_mem _ (ih h)

theorem jsMapGet_eq_none_iff {α : Type} (l : List (String × α)) (k : String) :
    jsMapGet l k = none ↔ k ∉ l.map Prod.fst := by
  induction l with
  | nil => simp [jsMapGet]
  | cons p rest ih =>
    obtain ⟨k', v'⟩ := p
    by_cases h : k' = k
    · simp [jsMapGet, h]
    · simp [jsMapGet, h, ih, Ne.symm h]

theorem jsMapGet_modifyEntries {α : Type} (u : String) (f : α → α)
    (l : List (String × α)) (k : String) :
    jsMapGet (modifyEntries u f l) k
      = if k = u then (jsMapGet l k).map f else jsMapGet l k := by
  induction l with
  | nil => simp [modifyEntries, jsMapGet]
  | cons p rest ih =>
    obtain ⟨k', v⟩ := p
    by_cases hku : k' = u
    · subst hku
      by_cases hkk : k' = k
      · subst hkk
        simp [modifyEntries, jsMapGet]
      · have hkk' : ¬ k = k' := fun h => hkk h.symm
        simp [modifyEntries, jsMapGet, hkk, hkk', ih]
    · by_cases hkk : k' = k
      · subst hkk
        simp [modifyEntries, jsMapGet, hku]
      · simp [modifyEntries, jsMapGet, hku, hkk, ih]

theorem modifyEntries_keys {α : Type} (u : String) (f : α → α)
    (l : List (String × α)) :
    (modifyEntries u f l).map Prod.fst = l.map Prod.fst := by
  induction l with
  | nil => rfl
  | cons p rest ih =>
    obtain ⟨k', v⟩ := p
    by_cases hku : k' = u <;> simp [modifyEntries, hku, ih]

theorem modifyEntries_forall {α : Type} {P : String × α → Prop} (u : String)
    (f : α → α) (l : List (String × α)) (hl : ∀ p ∈ l, P p)
    (hf : ∀ p ∈ l, P p → P (p.1, f p.2)) :
    ∀ p ∈ modifyEntries u f l, P p := by
  induction l with
  | nil => simp [modifyEntries]
  | cons q rest ih =>
    obtain ⟨k', v⟩ := q
    intro p hp
    by_cases hku : k' = u
    · rw [modifyEntries, if_pos hku] at hp
      rcases List.mem_cons.mp hp with rfl | hp
      · exact hf _ (List.mem_cons_self _ _) (hl _ (List.mem_cons_self _ _))
      · exact ih (fun q hq => hl q (List.mem_cons_of_mem _ hq))
          (fun q hq => hf q (List.mem_cons_of_mem _ hq)) p hp
    · rw [modifyEntries, if_neg hku] at hp
      rcases List.mem_cons.mp hp with rfl | hp
      · exact hl _ (List.mem_cons_self _ _)
      · exact ih (fun q hq => hl q (List.mem_cons_of_mem _ hq))
          (fun q hq => hf q (List.mem_cons_of_mem _ hq)) p hp

theorem jsMapDelete_get {α : Type} (l : List (String × α)) (u k : String)
    (hnodup : (l.map Prod.fst).Nodup) :
    jsMapGet (jsMapDelete l u) k = if k = u then none else jsMapGet l k := by
  induction l with
  | nil => simp [jsMapDelete, jsMapGet]
  | cons p rest ih =>
    obtain ⟨k', v⟩ := p
    simp only [List.map_cons, List.nodup_cons] at hnodup
    by_cases hku : k' = u
    · subst hku
      rw [jsMapDelete, if_pos rfl]
      by_cases hkk : k = k'
      · subst hkk
        rw [if_pos rfl, (jsMapGet_eq_none_iff rest k).mpr hnodup.1]
      · rw [if_neg hkk, jsMapGet, if_neg (fun h => hkk h.symm)]
    · rw [jsMapDelete, if_neg hku]
      by_cases hkk : k' = k
      · subst hkk
        rw [jsMapGet, if_pos rfl, if_neg hku, jsMapGet, if_pos rfl]
      · rw [jsMapGet, if_neg hkk, ih hnodup.2, jsMapGet, if_neg hkk]

theorem jsSetAdd_mem (s : List String) (x y : String) :
    y ∈ jsSetAdd s x ↔ y ∈ s ∨ y = x := by
  unfold jsSetAdd
  by_cases h : x ∈ s
  · rw [if_pos h]
    constructor
    · exact fun hy => Or.inl hy
    · rintro (hy | rfl)
      · exact hy
      · exact h
  · rw [if_neg h]
    simp

theorem jsSetAdd_nodup {s : List String} (h : s.Nodup) (x : String) :
    (jsSetAdd s x).Nodup := by
  unfold jsSetAdd
  by_cases hx : x ∈ s
  · rwa [if_pos hx]
  · rw [if_neg hx]
    refine List.Nodup.append h (List.nodup_singleton x) ?_
    intro a ha hb
    rw [List.mem_singleton] at hb
    subst hb
    exact hx ha

theorem jsSetOfList_nodup (l : List String) : (jsSetOfList l).Nodup := by
  unfold jsSetOfList
  suffices h : ∀ acc : List String, acc.Nodup → (l.foldl jsSetAdd acc).Nodup by
    exact h [] List.nodup_nil
  induction l with
  | nil => exact fun acc h => h
  | cons x rest ih => exact fun acc h => ih _ (jsSetAdd_nodup h x)

theorem jsSetOfList_mem (l : List String) (y : String) :
    y ∈ jsSetOfList l ↔ y ∈ l := by
  unfold jsSetOfList
  suffices h : ∀ acc : List String, y ∈ l.foldl jsSetAdd acc ↔ y ∈ acc ∨ y ∈ l by
    simpa using h []
  induction l with
  | nil => simp
  | cons x rest ih =>
    intro acc
    rw [List.foldl_cons, ih (jsSetAdd acc x), jsSetAdd_mem]
    constructor
    · rintro ((hy | rfl) | hy)
      · exact Or.inl hy
      · exact Or.inr (List.mem_cons_self _ _)
      · exact Or.inr (List.mem_cons_of_mem _ hy)
    · rintro (hy | hy)
      · exact Or.inl (Or.inl hy)
      · rcases List.mem_cons.mp hy with rfl | hy
        · exact Or.inl (Or.inr rfl)
        · exact Or.inr hy

/-! ## Includes graph: node creation and modification -/

theorem getOrCreate_includesOf (g : IncludesGraph) (u k : String) :
    (g.getOrCreate u).includesOf k = g.includesOf k := by
  unfold IncludesGraph.getOrCreate IncludesGraph.includesOf
  by_cases hp : (jsMapGet g.nodes u).isSome
  · rw [if_pos hp]
  · rw [if_neg hp]
    simp only
    rw [jsMapGet_append]
    cases hk : jsMapGet g.nodes k with
    | some n => rfl
    | none =>
      by_cases hk2 : u = k
      · subst hk2
        simp [jsMapGet]
      · simp [jsMapGet, hk2]

theorem getOrCreate_includedByOf (g : IncludesGraph) (u k : String) :
    (g.getOrCreate u).includedByOf k = g.includedByOf k := by
  unfold IncludesGraph.getOrCreate IncludesGraph.includedByOf
  by_cases hp : (jsMapGet g.nodes u).isSome
  · rw [if_pos hp]
  · rw [if_neg hp]
    simp only
    rw [jsMapGet_append]
    cases hk : jsMapGet g.nodes k with
    | some n => rfl
    | none =>
      by_cases hk2 : u = k
      · subst hk2
        simp [jsMapGet]
      · simp [jsMapGet, hk2]

theorem getOrCreate_present_mono (g : IncludesGraph) (u k : String)
    (h : (jsMapGet g.nodes k).isSome = true) :
    (jsMapGet (g.getOrCreate u).nodes k).isSome = true := by
  unfold IncludesGraph.getOrCreate
  by_cases hp : (jsMapGet g.nodes u).isSome
  · rwa [if_pos hp]
  · rw [if_neg hp]
    simp only
    rw [jsMapGet_append]
    cases hk : jsMapGet g.nodes k with
    | some n => rfl
    | none => rw [hk] at h; simp at h

theorem getOrCreate_present_self (g : IncludesGraph) (u : String) :
    (jsMapGet (g.getOrCreate u).nodes u).isSome = true := by
  unfold IncludesGraph.getOrCreate
  by_cases hp : (jsMapGet g.nodes u).isSome
  · rwa [if_pos hp]
  · rw [if_neg hp]
    simp only
    rw [jsMapGet_append]
    cases hk : jsMapGet g.nodes u with
    | some n => rfl
    | none => simp [jsMapGet]

theorem foldl_getOrCreate_includesOf (us : List String) :
    ∀ (g : IncludesGraph) (k : String),
      ((us.foldl (fun acc u => acc.getOrCreate u) g)).includesOf k
        = g.includesOf k := by
  induction us with
  | nil => intro g k; rfl
  | cons x rest ih =>
    intro g k
    rw [List.foldl_cons, ih, getOrCreate_includesOf]

theorem foldl_getOrCreate_includedByOf (us : List String) :
    ∀ (g : IncludesGraph) (k : String),
      ((us.foldl (fun acc u => acc.getOrCreate u) g)).includedByOf k
        = g.includedByOf k := by
  induction us with
  | nil => intro g k; rfl
  | cons x rest ih =>
    intro g k
    rw [List.foldl_cons, ih, getOrCreate_includedByOf]

theorem foldl_getOrCreate_present_mono (us : List String) :
    ∀ (g : IncludesGraph) (k : String),
      (jsMapGet g.nodes k).isSome = true →
      (jsMapGet ((us.foldl (fun acc u => acc.getOrCreate u) g)).nodes k).isSome
        = true := by
  induction us with
  | nil => intro g k h; exact h
  | cons x rest ih =>
    intro g k h
    rw [List.foldl_cons]
    exact ih _ k (getOrCreate_present_mono g x k h)

theorem foldl_getOrCreate_present_of_mem (us : List String) :
    ∀ (g : IncludesGraph) (k : String), k ∈ us →
      (jsMapGet ((us.foldl (fun acc u => acc.getOrCreate u) g)).nodes k).isSome
        = true := by
  induction us with
  | nil => intro g k h; simp at h
  | cons x rest ih =>
    intro g k h
    rw [List.foldl_cons]
    rcases List.mem_cons.mp h with rfl | h
    · exact foldl_getOrCreate_present_mono rest _ k (getOrCreate_present_self g k)
    · exact ih _ k h

theorem modifyNode_get (g : IncludesGraph) (u : String) (f : FileNode → FileNode)
    (k : String) :
    jsMapGet (g.modifyNode u f).nodes k
      = if k = u then (jsMapGet g.nodes k).map f else jsMapGet g.nodes k :=
  jsMapGet_modifyEntries u f g.nodes k

theorem modifyNode_present (g : IncludesGraph) (u : String)
    (f : FileNode → FileNode) (k : String) :
    (jsMapGet (g.modifyNode u f).nodes k).isSome
      = (jsMapGet g.nodes k).isSome := by
  rw [modifyNode_get]
  by_cases h : k = u
  · rw [if_pos h]
    cases jsMapGet g.nodes k <;> rfl
  · rw [if_neg h]

theorem modifyNode_includesOf_preserve (g : IncludesGraph) (u : String)
    (f : FileNode → FileNode) (hf : ∀ n, (f n).includes = n.includes)
    (k : String) :
    (g.modifyNode u f).includesOf k = g.includesOf k := by
  unfold IncludesGraph.includesOf
  rw [modifyNode_get]
  by_cases h : k = u
  · rw [if_pos h]
    cases jsMapGet g.nodes k with
    | none => rfl
    | some n => simp [hf n]
  · rw [if_neg h]

theorem modifyNode_includedByOf_preserve (g : IncludesGraph) (u : String)
    (f : FileNode → FileNode) (hf : ∀ n, (f n).includedBy = n.includedBy)
    (k : String) :
    (g.modifyNode u f).includedByOf k = g.includedByOf k := by
  unfold IncludesGraph.includedByOf
  rw [modifyNode_get]
  by_cases h : k = u
  · rw [if_pos h]
    cases jsMapGet g.nodes k with
    | none => rfl
    | some n => simp [hf n]
  · rw [if_neg h]

theorem foldl_modify_includesOf_preserve (keys : List String)
    (f : FileNode → FileNode) (hf : ∀ n, (f n).includes = n.includes) :
    ∀ (g : IncludesGraph) (k : String),
      ((keys.foldl (fun acc x => acc.modifyNode x f) g)).includesOf k
        = g.includesOf k := by
  induction keys with
  | nil => intro g k; rfl
  | cons x rest ih =>
    intro g k
    rw [List.foldl_cons, ih, modifyNode_includesOf_preserve _ _ _ hf]

theorem foldl_modify_includedByOf_preserve (keys : List String)
    (f : FileNode → FileNode) (hf : ∀ n, (f n).includedBy = n.includedBy) :
    ∀ (g : IncludesGraph) (k : String),
      ((keys.foldl (fun acc x => acc.modifyNode x f) g)).includedByOf k
        = g.includedByOf k := by
  induction keys with
  | nil => intro g k; rfl
  | cons x rest ih =>
    intro g k
    rw [List.foldl_cons, ih, modifyNode_includedByOf_preserve _ _ _ hf]

theorem foldl_modify_present (keys : List String) (f : FileNode → FileNode) :
    ∀ (g : IncludesGraph) (k : String),
      (jsMapGet ((keys.foldl (fun acc x => acc.modifyNode x f) g)).nodes k).isSome
        = (jsMapGet g.nodes k).isSome := by
  induction keys with
  | nil => intro g k; rfl
  | cons x rest ih =>
    intro g k
    rw [List.foldl_cons, ih, modifyNode_present]

theorem foldl_modify_includedByOf (keys : List String) (f : FileNode → FileNode)
    (h : List String → List String)
    (hf1 : ∀ n, (f n).includes = n.includes)
    (hf2 : ∀ n, (f n).includedBy = h n.includedBy) :
    ∀ (g : IncludesGraph) (k : String), keys.Nodup →
      (∀ x ∈ keys, (jsMapGet g.nodes x).isSome = true) →
      ((keys.foldl (fun acc x => acc.modifyNode x f) g)).includedByOf k
        = if k ∈ keys then h (g.includedByOf k) else g.includedByOf k := by
  induction keys with
  | nil => intro g k _ _; simp
  | cons x rest ih =>
    intro g k hnodup hpres
    rw [List.nodup_cons] at hnodup
    rw [List.foldl_cons]
    have hpres' : ∀ y ∈ rest, (jsMapGet (g.modifyNode x f).nodes y).isSome = true := by
      intro y hy
      rw [modifyNode_present]
      exact hpres y (List.mem_cons_of_mem _ hy)
    rw [ih _ k hnodup.2 hpres']
    have hself : (g.modifyNode x f).includedByOf x = h (g.includedByOf x) := by
      unfold IncludesGraph.includedByOf
      rw [modifyNode_get, if_pos rfl]
      obtain ⟨n, hn⟩ := Option.isSome_iff_exists.mp (hpres x (List.mem_cons_self _ _))
      rw [hn]
      simp [hf2 n]
    have hother : ∀ y, y ≠ x → (g.modifyNode x f).includedByOf y = g.includedByOf y := by
      intro y hy
      unfold IncludesGraph.includedByOf
      rw [modifyNode_get, if_neg hy]
    by_cases hk : k ∈ rest
    · have hkx : k ≠ x := fun he => hnodup.1 (he ▸ hk)
      rw [if_pos hk, if_pos (List.mem_cons_of_mem _ hk), hother k hkx]
    · rw [if_neg hk]
      by_cases hkx : k = x
      · subst hkx
        rw [hself, if_pos (List.mem_cons_self _ _)]
      · rw [hother k hkx, if_neg (by simp [hkx, hk])]

theorem foldl_modify_includesOf (keys : List String) (f : FileNode → FileNode)
    (h : List String → List String)
    (hf1 : ∀ n, (f n).includedBy = n.includedBy)
    (hf2 : ∀ n, (f n).includes = h n.includes) :
    ∀ (g : IncludesGraph) (k : String), keys.Nodup →
      (∀ x ∈ keys, (jsMapGet g.nodes x).isSome = true) →
      ((keys.foldl (fun acc x => acc.modifyNode x f) g)).includesOf k
        = if k ∈ keys then h (g.includesOf k) else g.includesOf k := by
  induction keys with
  | nil => intro g k _ _; simp
  | cons x rest ih =>
    intro g k hnodup hpres
    rw [List.nodup_cons] at hnodup
    rw [List.foldl_cons]
    have hpres' : ∀ y ∈ rest, (jsMapGet (g.modifyNode x f).nodes y).isSome = true := by
      intro y hy
      rw [modifyNode_present]
      exact hpres y (List.mem_cons_of_mem _ hy)
    rw [ih _ k hnodup.2 hpres']
    have hself : (g.modifyNode x f).includesOf x = h (g.includesOf x) := by
      unfold IncludesGraph.includesOf
      rw [modifyNode_get, if_pos rfl]
      obtain ⟨n, hn⟩ := Option.isSome_iff_exists.mp (hpres x (List.mem_cons_self _ _))
      rw [hn]
      simp [hf2 n]
    have hother : ∀ y, y ≠ x → (g.modifyNode x f).includesOf y = g.includesOf y := by
      intro y hy
      unfold IncludesGraph.includesOf
      rw [modifyNode_get, if_neg hy]
    by_cases hk : k ∈ rest
    · have hkx : k ≠ x := fun he => hnodup.1 (he ▸ hk)
      rw [if_pos hk, if_pos (List.mem_cons_of_mem _ hk), hother k hkx]
    · rw [if_neg hk]
      by_cases hkx : k = x
      · subst hkx
        rw [hself, if_pos (List.mem_cons_self _ _)]
      · rw [hother k hkx, if_neg (by simp [hkx, hk])]

theorem foldl_modify_skip (news : List String) (f : FileNode → FileNode) :
    ∀ (keys : List String) (g : IncludesGraph),
      keys.foldl (fun acc x => if x ∈ news then acc else acc.modifyNode x f) g
        = (keys.filter (fun x => x ∉ news)).foldl
            (fun acc x => acc.modifyNode x f) g := by
  intro keys
  induction keys with
  | nil => intro g; rfl
  | cons x rest ih =>
    intro g
    by_cases hx : x ∈ news
    · rw [List.foldl_cons, if_pos hx, List.filter_cons_of_neg (by simpa using hx)]
      exact ih g
    · rw [List.foldl_cons, if_neg hx, List.filter_cons_of_pos (by simpa using hx)]
      rw [List.foldl_cons]
      exact ih _

/-! ## Includes graph: `updateIncludes` characterization -/

theorem modifyNode_includesOf_other (g : IncludesGraph) (u : String)
    (f : FileNode → FileNode) (k : String) (h : k ≠ u) :
    (g.modifyNode u f).includesOf k = g.includesOf k := by
  unfold IncludesGraph.includesOf
  rw [modifyNode_get, if_neg h]

theorem modifyNode_includedByOf_other (g : IncludesGraph) (u : String)
    (f : FileNode → FileNode) (k : String) (h : k ≠ u) :
    (g.modifyNode u f).includedByOf k = g.includedByOf k := by
  unfold IncludesGraph.includedByOf
  rw [modifyNode_get, if_neg h]

theorem includesOf_modify_set (gg : IncludesGraph) (u : String) (L : List String)
    (hp : (jsMapGet gg.nodes u).isSome = true) :
    (gg.modifyNode u (fun n => { n with includes := L })).includesOf u = L := by
  unfold IncludesGraph.includesOf
  rw [modifyNode_get, if_pos rfl]
  obtain ⟨n, hn⟩ := Option.isSome_iff_exists.mp hp
  rw [hn]
  rfl

theorem updateIncludes_includesOf (g : IncludesGraph) (u : String)
    (l : List String) (k : String) :
    (g.updateIncludes u l).includesOf k
      = if k = u then jsSetOfList l else g.includesOf k := by
  simp only [IncludesGraph.updateIncludes]
  rw [foldl_modify_skip, foldl_modify_skip]
  by_cases hk : k = u
  · subst hk
    rw [if_pos rfl]
    apply includesOf_modify_set
    rw [foldl_modify_present, foldl_modify_present]
    exact foldl_getOrCreate_present_mono _ _ _ (getOrCreate_present_self g k)
  · rw [if_neg hk, modifyNode_includesOf_other _ _ _ _ hk]
    rw [foldl_modify_includesOf_preserve _
      (fun n => { n with includedBy := jsSetAdd n.includedBy u }) (fun n => rfl)]
    rw [foldl_modify_includesOf_preserve _
      (fun n => { n with includedBy := n.includedBy.erase u }) (fun n => rfl)]
    rw [foldl_getOrCreate_includesOf, getOrCreate_includesOf]

theorem updateIncludes_includedByOf (g : IncludesGraph) (u : String)
    (l : List String) (y : String) (hold : (g.includesOf u).Nodup)
    (hpres : ∀ x ∈ g.includesOf u, (jsMapGet g.nodes x).isSome = true) :
    (g.updateIncludes u l).includedByOf y
      = if y ∈ g.includesOf u ∧ y ∉ jsSetOfList l then (g.includedByOf y).erase u
        else if y ∈ jsSetOfList l ∧ y ∉ g.includesOf u then
          jsSetAdd (g.includedByOf y) u
        else g.includedByOf y := by
  simp only [IncludesGraph.updateIncludes]
  rw [foldl_modify_skip, foldl_modify_skip]
  rw [modifyNode_includedByOf_preserve _ _
    (fun n => { n with includes := jsSetOfList l }) (fun n => rfl)]
  have hg2inc : (l.foldl (fun acc u => acc.getOrCreate u)
      (g.getOrCreate u)).includesOf u = g.includesOf u := by
    rw [foldl_getOrCreate_includesOf, getOrCreate_includesOf]
  rw [hg2inc]
  rw [foldl_modify_includedByOf _
    (fun n => { n with includedBy := jsSetAdd n.includedBy u })
    (fun s => jsSetAdd s u) (fun n => rfl) (fun n => rfl)]
  rotate_left
  · exact (jsSetOfList_nodup l).filter _
  · intro x hx
    rw [foldl_modify_present]
    exact foldl_getOrCreate_present_of_mem _ _ _
      ((jsSetOfList_mem l x).mp (List.mem_of_mem_filter hx))
  rw [foldl_modify_includedByOf _
    (fun n => { n with includedBy := n.includedBy.erase u })
    (fun s => s.erase u) (fun n => rfl) (fun n => rfl)]
  rotate_left
  · exact hold.filter _
  · intro x hx
    exact foldl_getOrCreate_present_mono _ _ _
      (getOrCreate_present_mono _ _ _ (hpres x (List.mem_of_mem_filter hx)))
  rw [foldl_getOrCreate_includedByOf, getOrCreate_includedByOf]
  simp only [List.mem_filter, decide_eq_true_eq]
  by_cases h1 : y ∈ g.includesOf u <;> by_cases h2 : y ∈ jsSetOfList l <;>
    simp [h1, h2]

/-! ## Includes graph: `removeFile` characterization -/

theorem modifyNode_keys (g : IncludesGraph) (u : String) (f : FileNode → FileNode) :
    (g.modifyNode u f).nodes.map Prod.fst = g.nodes.map Prod.fst :=
  modifyEntries_keys u f g.nodes

theorem foldl_modify_keys (keys : List String) (f : FileNode → FileNode) :
    ∀ g : IncludesGraph,
      ((keys.foldl (fun acc x => acc.modifyNode x f) g)).nodes.map Prod.fst
        = g.nodes.map Prod.fst := by
  induction keys with
  | nil => intro g; rfl
  | cons x rest ih =>
    intro g
    rw [List.foldl_cons, ih, modifyNode_keys]

theorem delete_includesOf (g : IncludesGraph) (u k : String)
    (hkeys : (g.nodes.map Prod.fst).Nodup) :
    (IncludesGraph.mk (jsMapDelete g.nodes u)).includesOf k
      = if k = u then [] else g.includesOf k := by
  unfold IncludesGraph.includesOf
  simp only
  rw [jsMapDelete_get _ _ _ hkeys]
  by_cases h : k = u
  · rw [if_pos h, if_pos h]
    rfl
  · rw [if_neg h, if_neg h]

theorem delete_includedByOf (g : IncludesGraph) (u k : String)
    (hkeys : (g.nodes.map Prod.fst).Nodup) :
    (IncludesGraph.mk (jsMapDelete g.nodes u)).includedByOf k
      = if k = u then [] else g.includedByOf k := by
  unfold IncludesGraph.includedByOf
  simp only
  rw [jsMapDelete_get _ _ _ hkeys]
  by_cases h : k = u
  · rw [if_pos h, if_pos h]
    rfl
  · rw [if_neg h, if_neg h]

theorem includedByOf_of_get (g : IncludesGraph) (u : String) (n : FileNode)
    (h : jsMapGet g.nodes u = some n) : g.includedByOf u = n.includedBy := by
  unfold IncludesGraph.includedByOf
  rw [h]
  rfl

theorem includesOf_of_get (g : IncludesGraph) (u : String) (n : FileNode)
    (h : jsMapGet g.nodes u = some n) : g.includesOf u = n.includes := by
  unfold IncludesGraph.includesOf
  rw [h]
  rfl

theorem includesOf_of_absent (g : IncludesGraph) (u : String)
    (h : jsMapGet g.nodes u = none) : g.includesOf u = [] := by
  unfold IncludesGraph.includesOf
  rw [h]
  rfl

theorem includedByOf_of_absent (g : IncludesGraph) (u : String)
    (h : jsMapGet g.nodes u = none) : g.includedByOf u = [] := by
  unfold IncludesGraph.includedByOf
  rw [h]
  rfl

theorem removeFile_includesOf (g : IncludesGraph) (u k : String)
    (hkeys : (g.nodes.map Prod.fst).Nodup)
    (hiby : (g.includedByOf u).Nodup)
    (hpres : ∀ x ∈ g.includedByOf u, (jsMapGet g.nodes x).isSome = true) :
    (g.removeFile u).includesOf k
      = if k = u then []
        else if k ∈ g.includedByOf u then (g.includesOf k).erase u
        else g.includesOf k := by
  unfold IncludesGraph.removeFile
  cases hu : jsMapGet g.nodes u with
  | none =>
    rw [includedByOf_of_absent g u hu]
    by_cases h : k = u
    · rw [if_pos h, h, includesOf_of_absent g u hu]
    · rw [if_neg h, if_neg (by simp)]
  | some node =>
    simp only
    rw [delete_includesOf _ _ _ (by rw [foldl_modify_keys, foldl_modify_keys]; exact hkeys)]
    by_cases h : k = u
    · rw [if_pos h, if_pos h]
    · rw [if_neg h, if_neg h]
      rw [foldl_modify_includesOf_preserve _
        (fun n => { n with includedBy := n.includedBy.erase u }) (fun n => rfl)]
      rw [← includedByOf_of_get g u node hu]
      rw [foldl_modify_includesOf _
        (fun n => { n with includes := n.includes.erase u })
        (fun s => s.erase u) (fun n => rfl) (fun n => rfl) _ _ hiby hpres]

theorem removeFile_includedByOf (g : IncludesGraph) (u k : String)
    (hkeys : (g.nodes.map Prod.fst).Nodup)
    (hiby : (g.includedByOf u).Nodup)
    (hinc : (g.includesOf u).Nodup)
    (hpres : ∀ x ∈ g.includesOf u, (jsMapGet g.nodes x).isSome = true)
    (hpresIby : ∀ x ∈ g.includedByOf u, (jsMapGet g.nodes x).isSome = true) :
    (g.removeFile u).includedByOf k
      = if k = u then []
        else if k ∈ (if u ∈ g.includedByOf u then (g.includesOf u).erase u
                     else g.includesOf u) then
          (g.includedByOf k).erase u
        else g.includedByOf k := by
  unfold IncludesGraph.removeFile
  cases hu : jsMapGet g.nodes u with
  | none =>
    rw [includesOf_of_absent g u hu, includedByOf_of_absent g u hu]
    by_cases h : k = u
    · rw [if_pos h, h, includedByOf_of_absent g u hu]
    · rw [if_neg h, if_neg (by simp)]
  | some node =>
    simp only
    rw [delete_includedByOf _ _ _ (by rw [foldl_modify_keys, foldl_modify_keys]; exact hkeys)]
    by_cases h : k = u
    · rw [if_pos h, if_pos h]
    · rw [if_neg h, if_neg h]
      have hphase1 : (node.includedBy.foldl
          (fun acc dep => acc.modifyNode dep
            (fun n => { n with includes := n.includes.erase u })) g).includesOf u
          = if u ∈ g.includedByOf u then (g.includesOf u).erase u
            else g.includesOf u := by
        rw [← includedByOf_of_get g u node hu]
        rw [foldl_modify_includesOf _
          (fun n => { n with includes := n.includes.erase u })
          (fun s => s.erase u) (fun n => rfl) (fun n => rfl) _ _ hiby
          (fun x hx => hpresIby x hx)]
      rw [hphase1]
      rw [foldl_modify_includedByOf _
        (fun n => { n with includedBy := n.includedBy.erase u })
        (fun s => s.erase u) (fun n => rfl) (fun n => rfl)]
      rotate_left
      · by_cases hself : u ∈ g.includedByOf u
        · rw [if_pos hself]
          exact hinc.erase u
        · rw [if_neg hself]
          exact hinc
      · intro x hx
        rw [foldl_modify_present]
        apply hpres
        by_cases hself : u ∈ g.includedByOf u
        · rw [if_pos hself] at hx
          exact List.mem_of_mem_erase hx
        · rw [if_neg hself] at hx
          exact hx
      rw [foldl_modify_includedByOf_preserve _
        (fun n => { n with includes := n.includes.erase u }) (fun n => rfl)]

/-! ## Includes graph: well-formedness preservation -/

theorem present_of_includedByOf_mem {g : IncludesGraph} {x y : String}
    (h : y ∈ g.includedByOf x) : (jsMapGet g.nodes x).isSome = true := by
  unfold IncludesGraph.includedByOf at h
  cases hq : jsMapGet g.nodes x with
  | none => rw [hq] at h; simp at h
  | some n => rfl

theorem present_of_includesOf_mem {g : IncludesGraph} {x y : String}
    (h : y ∈ g.includesOf x) : (jsMapGet g.nodes x).isSome = true := by
  unfold IncludesGraph.includesOf at h
  cases hq : jsMapGet g.nodes x with
  | none => rw [hq] at h; simp at h
  | some n => rfl

theorem includesOf_nodup {g : IncludesGraph} (hwf : GraphWF g) (u : String) :
    (g.includesOf u).Nodup := by
  unfold IncludesGraph.includesOf
  cases hq : jsMapGet g.nodes u with
  | none => simp
  | some n => exact (hwf.2 _ (jsMapGet_mem hq)).1

theorem includedByOf_nodup {g : IncludesGraph} (hwf : GraphWF g) (u : String) :
    (g.includedByOf u).Nodup := by
  unfold IncludesGraph.includedByOf
  cases hq : jsMapGet g.nodes u with
  | none => simp
  | some n => exact (hwf.2 _ (jsMapGet_mem hq)).2

theorem getOrCreate_keys_nodup {g : IncludesGraph} (u : String)
    (h : (g.nodes.map Prod.fst).Nodup) :
    ((g.getOrCreate u).nodes.map Prod.fst).Nodup := by
  unfold IncludesGraph.getOrCreate
  by_cases hp : (jsMapGet g.nodes u).isSome
  · rwa [if_pos hp]
  · rw [if_neg hp]
    simp only [List.map_append]
    have hu : u ∉ g.nodes.map Prod.fst := by
      rw [← jsMapGet_eq_none_iff]
      cases hq : jsMapGet g.nodes u with
      | none => rfl
      | some n => rw [hq] at hp; simp at hp
    refine List.Nodup.append h (List.nodup_singleton u) ?_
    intro a ha hb
    simp only [List.map_cons, List.map_nil, List.mem_singleton] at hb
    subst hb
    exact hu ha

theorem foldl_getOrCreate_keys_nodup (us : List String) :
    ∀ g : IncludesGraph, (g.nodes.map Prod.fst).Nodup →
      (((us.foldl (fun acc u => acc.getOrCreate u) g)).nodes.map Prod.fst).Nodup := by
  induction us with
  | nil => intro g h; exact h
  | cons x rest ih =>
    intro g h
    rw [List.foldl_cons]
    exact ih _ (getOrCreate_keys_nodup x h)

theorem getOrCreate_nodesOK {g : IncludesGraph} (u : String)
    (h : ∀ p ∈ g.nodes, p.2.includes.Nodup ∧ p.2.includedBy.Nodup) :
    ∀ p ∈ (g.getOrCreate u).nodes, p.2.includes.Nodup ∧ p.2.includedBy.Nodup := by
  unfold IncludesGraph.getOrCreate
  by_cases hp : (jsMapGet g.nodes u).isSome
  · rwa [if_pos hp]
  · rw [if_neg hp]
    intro p hp2
    rcases List.mem_append.mp hp2 with hp2 | hp2
    · exact h p hp2
    · simp only [List.mem_singleton] at hp2
      subst hp2
      exact ⟨List.nodup_nil, List.nodup_nil⟩

theorem foldl_getOrCreate_nodesOK (us : List String) :
    ∀ g : IncludesGraph,
      (∀ p ∈ g.nodes, p.2.includes.Nodup ∧ p.2.includedBy.Nodup) →
      ∀ p ∈ ((us.foldl (fun acc u => acc.getOrCreate u) g)).nodes,
        p.2.includes.Nodup ∧ p.2.includedBy.Nodup := by
  induction us with
  | nil => intro g h; exact h
  | cons x rest ih =>
    intro g h
    rw [List.foldl_cons]
    exact ih _ (getOrCreate_nodesOK x h)

theorem modifyNode_nodesOK {g : IncludesGraph} (u : String) (f : FileNode → FileNode)
    (hf : ∀ n : FileNode, n.includes.Nodup → n.includedBy.Nodup →
      (f n).includes.Nodup ∧ (f n).includedBy.Nodup)
    (h : ∀ p ∈ g.nodes, p.2.includes.Nodup ∧ p.2.includedBy.Nodup) :
    ∀ p ∈ (g.modifyNode u f).nodes, p.2.includes.Nodup ∧ p.2.includedBy.Nodup := by
  exact modifyEntries_forall u f g.nodes h (fun p _ hp => hf p.2 hp.1 hp.2)

theorem foldl_modify_nodesOK (keys : List String) (f : FileNode → FileNode)
    (hf : ∀ n : FileNode, n.includes.Nodup → n.includedBy.Nodup →
      (f n).includes.Nodup ∧ (f n).includedBy.Nodup) :
    ∀ g : IncludesGraph,
      (∀ p ∈ g.nodes, p.2.includes.Nodup ∧ p.2.includedBy.Nodup) →
      ∀ p ∈ ((keys.foldl (fun acc x => acc.modifyNode x f) g)).nodes,
        p.2.includes.Nodup ∧ p.2.includedBy.Nodup := by
  induction keys with
  | nil => intro g h; exact h
  | cons x rest ih =>
    intro g h
    rw [List.foldl_cons]
    exact ih _ (modifyNode_nodesOK x f hf h)

theorem jsMapDelete_sublist {α : Type} (l : List (String × α)) (u : String) :
    List.Sublist (jsMapDelete l u) l := by
  induction l with
  | nil => simp [jsMapDelete]
  | cons p rest ih =>
    obtain ⟨k', v⟩ := p
    rw [jsMapDelete]
    by_cases h : k' = u
    · rw [if_pos h]
      exact (List.Sublist.refl _).cons _
    · rw [if_neg h]
      exact ih.cons₂ _

theorem updateIncludes_wf (g : IncludesGraph) (u : String) (l : List String)
    (hwf : GraphWF g) : GraphWF (g.updateIncludes u l) := by
  constructor
  · simp only [IncludesGraph.updateIncludes]
    rw [foldl_modify_skip, foldl_modify_skip, modifyNode_keys,
      foldl_modify_keys, foldl_modify_keys]
    exact foldl_getOrCreate_keys_nodup l _ (getOrCreate_keys_nodup u hwf.1)
  · simp only [IncludesGraph.updateIncludes]
    rw [foldl_modify_skip, foldl_modify_skip]
    apply modifyNode_nodesOK u (fun n => { n with includes := jsSetOfList l })
      (fun n h1 h2 => ⟨jsSetOfList_nodup l, h2⟩)
    apply foldl_modify_nodesOK _
      (fun n => { n with includedBy := jsSetAdd n.includedBy u })
      (fun n h1 h2 => ⟨h1, jsSetAdd_nodup h2 u⟩)
    apply foldl_modify_nodesOK _
      (fun n => { n with includedBy := n.includedBy.erase u })
      (fun n h1 h2 => ⟨h1, h2.erase u⟩)
    exact foldl_getOrCreate_nodesOK l _ (getOrCreate_nodesOK u hwf.2)

theorem removeFile_wf (g : IncludesGraph) (u : String)
    (hwf : GraphWF g) : GraphWF (g.removeFile u) := by
  unfold IncludesGraph.removeFile
  cases hu : jsMapGet g.nodes u with
  | none => exact hwf
  | some node =>
    simp only
    constructor
    · apply List.Nodup.sublist (List.Sublist.map Prod.fst (jsMapDelete_sublist _ u))
      rw [foldl_modify_keys, foldl_modify_keys]
      exact hwf.1
    · intro p hp
      exact foldl_modify_nodesOK _
        (fun n => { n with includedBy := n.includedBy.erase u })
        (fun n h1 h2 => ⟨h1, h2.erase u⟩) _
        (foldl_modify_nodesOK _
          (fun n => { n with includes := n.includes.erase u })
          (fun n h1 h2 => ⟨h1.erase u, h2⟩) _ hwf.2)
        p ((jsMapDelete_sublist _ u).subset hp)

/-! ## Includes graph: the mutual-inverse invariant -/

theorem updateIncludes_inv (g : IncludesGraph) (u : String) (l : List String)
    (hwf : GraphWF g) (hinv : GraphInv g) : GraphInv (g.updateIncludes u l) := by
  have hpres : ∀ x ∈ g.includesOf u, (jsMapGet g.nodes x).isSome = true := by
    intro x hx
    exact present_of_includedByOf_mem ((hinv u x).mp hx)
  intro a b
  rw [updateIncludes_includesOf, updateIncludes_includedByOf g u l b
    (includesOf_nodup hwf u) hpres]
  by_cases ha : a = u
  · subst ha
    rw [if_pos rfl]
    by_cases hb1 : b ∈ g.includesOf a
    · by_cases hb2 : b ∈ jsSetOfList l
      · rw [if_neg (by simp [hb2]), if_neg (by simp [hb1])]
        exact ⟨fun _ => (hinv a b).mp hb1, fun _ => hb2⟩
      · rw [if_pos ⟨hb1, hb2⟩]
        constructor
        · intro h
          exact absurd h hb2
        · intro h
          rw [(includedByOf_nodup hwf b).mem_erase_iff] at h
          exact absurd rfl h.1
    · by_cases hb2 : b ∈ jsSetOfList l
      · rw [if_neg (by simp [hb1]), if_pos ⟨hb2, hb1⟩]
        exact ⟨fun _ => (jsSetAdd_mem _ _ _).mpr (Or.inr rfl), fun _ => hb2⟩
      · rw [if_neg (by simp [hb1]), if_neg (by simp [hb2])]
        constructor
        · intro h
          exact absurd h hb2
        · intro h
          exact absurd ((hinv a b).mpr h) hb1
  · rw [if_neg ha]
    by_cases hb1 : b ∈ g.includesOf u
    · by_cases hb2 : b ∈ jsSetOfList l
      · rw [if_neg (by simp [hb2]), if_neg (by simp [hb1])]
        exact hinv a b
      · rw [if_pos ⟨hb1, hb2⟩]
        rw [List.mem_erase_of_ne ha]
        exact hinv a b
    · by_cases hb2 : b ∈ jsSetOfList l
      · rw [if_neg (by simp [hb1]), if_pos ⟨hb2, hb1⟩, jsSetAdd_mem]
        constructor
        · intro h
          exact Or.inl ((hinv a b).mp h)
        · rintro (h | h)
          · exact (hinv a b).mpr h
          · exact absurd h ha
      · rw [if_neg (by simp [hb1]), if_neg (by simp [hb2])]
        exact hinv a b

theorem removeFile_inv (g : IncludesGraph) (u : String)
    (hwf : GraphWF g) (hinv : GraphInv g) : GraphInv (g.removeFile u) := by
  have hpresInc : ∀ x ∈ g.includesOf u, (jsMapGet g.nodes x).isSome = true :=
    fun x hx => present_of_includedByOf_mem ((hinv u x).mp hx)
  have hpresIby : ∀ x ∈ g.includedByOf u, (jsMapGet g.nodes x).isSome = true :=
    fun x hx => present_of_includesOf_mem ((hinv x u).mpr hx)
  intro a b
  rw [removeFile_includesOf g u a hwf.1 (includedByOf_nodup hwf u) hpresIby,
    removeFile_includedByOf g u b hwf.1 (includedByOf_nodup hwf u)
      (includesOf_nodup hwf u) hpresInc hpresIby]
  set phase1 : List String :=
    if u ∈ g.includedByOf u then (g.includesOf u).erase u else g.includesOf u
    with hphase1
  have hphase1_mem : ∀ y, y ≠ u → (y ∈ phase1 ↔ y ∈ g.includesOf u) := by
    intro y hy
    rw [hphase1]
    by_cases hself : u ∈ g.includedByOf u
    · rw [if_pos hself, List.mem_erase_of_ne hy]
    · rw [if_neg hself]
  by_cases ha : a = u
  · subst ha
    rw [if_pos rfl]
    by_cases hb : b = a
    · subst hb
      rw [if_pos rfl]
    · rw [if_neg hb]
      by_cases hbp : b ∈ phase1
      · constructor
        · intro h
          simp at h
        · rw [if_pos hbp, (includedByOf_nodup hwf b).mem_erase_iff]
          intro h
          exact absurd rfl h.1
      · rw [if_neg hbp]
        constructor
        · intro h
          simp at h
        · intro h
          have hb2 : b ∈ g.includesOf a := (hinv a b).mpr h
          exact absurd ((hphase1_mem b hb).mpr hb2) hbp
  · rw [if_neg ha]
    by_cases hb : b = u
    · subst hb
      rw [if_pos rfl]
      by_cases hab : a ∈ g.includedByOf b
      · rw [if_pos hab]
        constructor
        · intro h
          rw [(includesOf_nodup hwf a).mem_erase_iff] at h
          exact absurd rfl h.1
        · intro h
          simp at h
      · rw [if_neg hab]
        constructor
        · intro h
          exact absurd ((hinv a b).mp h) hab
        · intro h
          simp at h
    · rw [if_neg hb]
      by_cases hau : a ∈ g.includedByOf u
      · rw [if_pos hau]
        by_cases hbp : b ∈ phase1
        · rw [if_pos hbp, List.mem_erase_of_ne hb, List.mem_erase_of_ne ha]
          exact hinv a b
        · rw [if_neg hbp, List.mem_erase_of_ne hb]
          exact hinv a b
      · rw [if_neg hau]
        by_cases hbp : b ∈ phase1
        · rw [if_pos hbp, List.mem_erase_of_ne ha]
          exact hinv a b
        · rw [if_neg hbp]
          exact hinv a b

theorem applyOp_wf_inv (g : IncludesGraph) (op : GraphOp)
    (h : GraphWF g ∧ GraphInv g) :
    GraphWF (applyOp g op) ∧ GraphInv (applyOp g op) := by
  cases op with
  | update uri l =>
    exact ⟨updateIncludes_wf g uri l h.1, updateIncludes_inv g uri l h.1 h.2⟩
  | remove uri =>
    exact ⟨removeFile_wf g uri h.1, removeFile_inv g uri h.1 h.2⟩

theorem applyOps_wf_inv (ops : List GraphOp) :
    ∀ g : IncludesGraph, GraphWF g ∧ GraphInv g →
      GraphWF (applyOps g ops) ∧ GraphInv (applyOps g ops) := by
  induction ops with
  | nil => intro g h; exact h
  | cons op rest ih =>
    intro g h
    exact ih _ (applyOp_wf_inv g op h)

/-- C5: after any sequence of `updateIncludes` and `removeFile` operations
starting from the empty graph, the two adjacency relations are mutual
inverses: `B ∈ A.includes` iff `A ∈ B.includedBy`, for all `A` and `B`
(vacuously for absent nodes, whose adjacency reads as empty). -/
theorem includesGraph_mutual_inverse (ops : List GraphOp) :
    ∀ a b, b ∈ (applyOps ⟨[]⟩ ops).includesOf a
      ↔ a ∈ (applyOps ⟨[]⟩ ops).includedByOf b := by
  have h0 : GraphWF ⟨[]⟩ ∧ GraphInv ⟨[]⟩ := by
    refine ⟨⟨List.nodup_nil, by intro p hp; simp at hp⟩, ?_⟩
    intro a b
    simp [IncludesGraph.includesOf, IncludesGraph.includedByOf, jsMapGet]
  exact (applyOps_wf_inv ops ⟨[]⟩ h0).2

/-! ## Includes graph: DFS membership characterization -/

theorem RA_start_not_visited {g : IncludesGraph} {dir : LinkDir}
    {visited : List String} {s x : String}
    (h : ReachAvoid g dir visited s x) : s ∉ visited := by
  cases h with
  | refl hs => exact hs
  | head hs _ _ => exact hs

theorem RA_mono {g : IncludesGraph} {dir : LinkDir} {n : String}
    {visited : List String} {s x : String}
    (h : ReachAvoid g dir (n :: visited) s x) : ReachAvoid g dir visited s x := by
  induction h with
  | refl hs => exact .refl (fun hc => hs (List.mem_cons_of_mem _ hc))
  | head hs hy _ ih => exact .head (fun hc => hs (List.mem_cons_of_mem _ hc)) hy ih

theorem RA_snoc {g : IncludesGraph} {dir : LinkDir} {visited : List String}
    {s y x : String} (h : ReachAvoid g dir visited s y)
    (hx : x ∈ g.adj dir y) (hxv : x ∉ visited) :
    ReachAvoid g dir visited s x := by
  induction h with
  | refl hs => exact .head hs hx (.refl hxv)
  | head hs hy _ ih => exact .head hs hy (ih hx)

theorem RA_cut {g : IncludesGraph} {dir : LinkDir} {n : String}
    {visited : List String} {s x : String}
    (h : ReachAvoid g dir visited s x) (hx : x ≠ n) :
    ReachAvoid g dir (n :: visited) s x
      ∨ ∃ y ∈ g.adj dir n, ReachAvoid g dir (n :: visited) y x := by
  revert hx
  induction h with
  | refl hs =>
    intro hx
    exact Or.inl (.refl (by simp [hx, hs]))
  | @head s' y' x' hs hy h ih =>
    intro hx
    rcases ih hx with ih | ih
    · by_cases hsn : s' = n
      · subst hsn
        exact Or.inr ⟨_, hy, ih⟩
      · exact Or.inl (.head (by simp [hsn, hs]) hy ih)
    · exact Or.inr ih

theorem jsMapGet_of_mem_nodup {α : Type} {l : List (String × α)}
    (hnodup : (l.map Prod.fst).Nodup) {k : String} {v : α} (h : (k, v) ∈ l) :
    jsMapGet l k = some v := by
  induction l with
  | nil => simp at h
  | cons p rest ih =>
    obtain ⟨k', v'⟩ := p
    simp only [List.map_cons, List.nodup_cons] at hnodup
    rcases List.mem_cons.mp h with heq | h2
    · cases heq
      rw [jsMapGet, if_pos rfl]
    · rw [jsMapGet]
      have hkk : ¬ k' = k := by
        intro he
        subst he
        exact hnodup.1 (List.mem_map_of_mem Prod.fst h2)
      rw [if_neg hkk]
      exact ih hnodup.2 h2

theorem adj_of_absent (g : IncludesGraph) (dir : LinkDir) (n : String)
    (h : jsMapGet g.nodes n = none) : g.adj dir n = [] := by
  cases dir with
  | includes =>
    show g.includesOf n = []
    exact includesOf_of_absent g n h
  | includedBy =>
    show g.includedByOf n = []
    exact includedByOf_of_absent g n h

theorem sum_deg_filter (g : IncludesGraph) (dir : LinkDir)
    (visited : List String) (n : String) (hn : n ∉ visited) :
    ∀ L : List (String × FileNode), (L.map Prod.fst).Nodup →
      ((L.filter (fun p => p.1 ∉ visited)).map
        (fun p => (g.adj dir p.1).length)).sum
        = ((L.filter (fun p => p.1 ∉ n :: visited)).map
            (fun p => (g.adj dir p.1).length)).sum
          + (if n ∈ L.map Prod.fst then (g.adj dir n).length else 0) := by
  intro L
  induction L with
  | nil => simp
  | cons p rest ih =>
    intro hnodup
    obtain ⟨k, node⟩ := p
    simp only [List.map_cons, List.nodup_cons] at hnodup
    by_cases hkv : k ∈ visited
    · have h1 : ¬ decide (k ∉ visited) = true := by simp [hkv]
      have h2 : ¬ decide (k ∉ n :: visited) = true := by simp [hkv]
      rw [List.filter_cons, List.filter_cons, if_neg h1, if_neg h2,
        ih hnodup.2]
      have hkn : ¬ (n = k) := fun he => (he ▸ hn) hkv
      have hc : (n ∈ List.map Prod.fst ((k, node) :: rest))
          ↔ (n ∈ List.map Prod.fst rest) := by simp [hkn]
      rw [if_congr hc rfl rfl]
    · by_cases hkn : k = n
      · subst hkn
        have h1 : decide (k ∉ visited) = true := by simp [hkv]
        have h2 : ¬ decide (k ∉ k :: visited) = true := by simp
        rw [List.filter_cons, List.filter_cons, if_pos h1, if_neg h2,
          List.map_cons, List.sum_cons, ih hnodup.2]
        rw [if_pos (show k ∈ List.map Prod.fst ((k, node) :: rest) by simp),
          if_neg (by simpa using hnodup.1)]
        dsimp only
        omega
      · have h1 : decide (k ∉ visited) = true := by simp [hkv]
        have h2 : decide (k ∉ n :: visited) = true := by simp [hkv, hkn]
        rw [List.filter_cons, List.filter_cons, if_pos h1, if_pos h2,
          List.map_cons, List.sum_cons, List.map_cons, List.sum_cons,
          ih hnodup.2]
        have hnk : ¬ (n = k) := fun he => hkn he.symm
        have hc : (n ∈ List.map Prod.fst ((k, node) :: rest))
            ↔ (n ∈ List.map Prod.fst rest) := by simp [hnk]
        rw [if_congr hc rfl rfl]
        by_cases hnr : n ∈ List.map Prod.fst rest <;> simp [hnr] <;> omega

theorem dfsMeasure_cons (g : IncludesGraph) (dir : LinkDir) (n : String)
    (rest visited : List String) :
    dfsMeasure g dir (n :: rest) visited
      = dfsMeasure g dir rest visited + 1 := by
  simp [dfsMeasure]
  omega

theorem dfsMeasure_visit (g : IncludesGraph) (dir : LinkDir)
    (hnodup : (g.nodes.map Prod.fst).Nodup) (n : String)
    (rest visited : List String) (hn : n ∉ visited) :
    dfsMeasure g dir ((g.adj dir n).reverse ++ rest) (n :: visited)
      < dfsMeasure g dir (n :: rest) visited := by
  unfold dfsMeasure
  have hsum := sum_deg_filter g dir visited n hn g.nodes hnodup
  by_cases hmem : n ∈ g.nodes.map Prod.fst
  · rw [if_pos hmem] at hsum
    simp only [List.length_append, List.length_reverse, List.length_cons]
    omega
  · rw [if_neg hmem] at hsum
    have hadj : g.adj dir n = [] :=
      adj_of_absent g dir n ((jsMapGet_eq_none_iff _ _).mpr hmem)
    rw [hadj]
    simp only [List.reverse_nil, List.nil_append, List.length_cons]
    omega

theorem dfsAux_mem (g : IncludesGraph) (dir : LinkDir)
    (hnodup : (g.nodes.map Prod.fst).Nodup) :
    ∀ (fuel : Nat) (stack visited : List String),
      dfsMeasure g dir stack visited ≤ fuel →
      ∀ x, x ∈ dfsAux g dir fuel stack visited
        ↔ ∃ s ∈ stack, ReachAvoid g dir visited s x := by
  intro fuel
  induction fuel with
  | zero =>
    intro stack visited hm x
    cases stack with
    | nil => simp [dfsAux]
    | cons n rest =>
      rw [dfsMeasure_cons] at hm
      omega
  | succ fuel ih =>
    intro stack visited hm x
    cases stack with
    | nil => simp [dfsAux]
    | cons n rest =>
      rw [dfsAux]
      by_cases hv : n ∈ visited
      · rw [if_pos hv]
        have hm' : dfsMeasure g dir rest visited ≤ fuel := by
          rw [dfsMeasure_cons] at hm
          omega
        rw [ih rest visited hm' x]
        constructor
        · rintro ⟨s, hs, hra⟩
          exact ⟨s, List.mem_cons_of_mem _ hs, hra⟩
        · rintro ⟨s, hs, hra⟩
          rcases List.mem_cons.mp hs with rfl | hs
          · exact absurd hv (RA_start_not_visited hra)
          · exact ⟨s, hs, hra⟩
      · rw [if_neg hv]
        have hm' : dfsMeasure g dir ((g.adj dir n).reverse ++ rest)
            (n :: visited) ≤ fuel := by
          have := dfsMeasure_visit g dir hnodup n rest visited hv
          omega
        rw [List.mem_cons, ih _ _ hm' x]
        constructor
        · rintro (rfl | ⟨s, hs, hra⟩)
          · exact ⟨x, List.mem_cons_self _ _, .refl hv⟩
          · rcases List.mem_append.mp hs with hs | hs
            · exact ⟨n, List.mem_cons_self _ _,
                .head hv (List.mem_reverse.mp hs) (RA_mono hra)⟩
            · exact ⟨s, List.mem_cons_of_mem _ hs, RA_mono hra⟩
        · rintro ⟨s, hs, hra⟩
          by_cases hx : x = n
          · exact Or.inl hx
          · right
            rcases RA_cut hra hx with hra' | ⟨y, hy, hra'⟩
            · have hsn : s ≠ n := by
                intro he
                exact (RA_start_not_visited hra') (he ▸ List.mem_cons_self _ _)
              rcases List.mem_cons.mp hs with rfl | hs
              · exact absurd rfl hsn
              · exact ⟨s, List.mem_append_right _ hs, hra'⟩
            · exact ⟨y, List.mem_append_left _ (List.mem_reverse.mpr hy), hra'⟩

theorem getTransitiveLinks_mem (g : IncludesGraph) (dir : LinkDir)
    (uri : String) (hnodup : (g.nodes.map Prod.fst).Nodup)
    (huri : (jsMapGet g.nodes uri).isSome = true) (x : String) :
    x ∈ g.getTransitiveLinks uri dir ↔ ReachAvoid g dir [] uri x := by
  unfold IncludesGraph.getTransitiveLinks
  rw [if_pos huri]
  have hfuel : dfsMeasure g dir [uri] [] ≤ g.totalAdj dir + 1 := by
    unfold dfsMeasure IncludesGraph.totalAdj
    have hfilter : g.nodes.filter (fun p => p.1 ∉ ([] : List String)) = g.nodes := by
      apply List.filter_eq_self.mpr
      intro p _
      simp
    rw [hfilter]
    have hcongr : g.nodes.map (fun p => (g.adj dir p.1).length)
        = g.nodes.map (fun p =>
            (match dir with
             | .includes => p.2.includes
             | .includedBy => p.2.includedBy).length) := by
      apply List.map_congr_left
      intro p hp
      have hget : jsMapGet g.nodes p.1 = some p.2 := by
        obtain ⟨k, v⟩ := p
        exact jsMapGet_of_mem_nodup hnodup hp
      cases dir with
      | includes =>
        show (g.includesOf p.1).length = _
        rw [includesOf_of_get g p.1 p.2 hget]
      | includedBy =>
        show (g.includedByOf p.1).length = _
        rw [includedByOf_of_get g p.1 p.2 hget]
    rw [hcongr]
    simp
    omega
  rw [dfsAux_mem g dir hnodup _ _ _ hfuel x]
  constructor
  · rintro ⟨s, hs, hra⟩
    rcases List.mem_singleton.mp hs with rfl
    exact hra
  · intro hra
    exact ⟨uri, List.mem_singleton_self _, hra⟩

theorem graphInv_of_bounded (g : IncludesGraph) (h : GraphInvB g) :
    GraphInv g := by
  obtain ⟨h1, h2⟩ := h
  intro a b
  constructor
  · intro hb
    have hpres := present_of_includesOf_mem hb
    obtain ⟨n, hn⟩ := Option.isSome_iff_exists.mp hpres
    exact h1 (a, n) (jsMapGet_mem hn) b hb
  · intro ha
    have hpres := present_of_includedByOf_mem ha
    obtain ⟨n, hn⟩ := Option.isSome_iff_exists.mp hpres
    exact h2 (b, n) (jsMapGet_mem hn) a ha

theorem RA_symm_ib_inc {g : IncludesGraph} (hinv : GraphInv g) {a b : String}
    (h : ReachAvoid g .includedBy [] a b) :
    ReachAvoid g .includes [] b a := by
  induction h with
  | refl _ => exact .refl (by simp)
  | @head s y x hs hy h ih =>
    exact RA_snoc ih ((hinv y s).mpr hy) (by simp)

theorem tuInner_mem (deps : List String) :
    ∀ (visited : List String) (x : String),
      (x ∈ (tuInner deps visited).1 ↔ x ∈ deps ∧ x ∉ visited)
      ∧ (x ∈ (tuInner deps visited).2 ↔ x ∈ visited ∨ x ∈ deps) := by
  induction deps with
  | nil =>
    intro visited x
    constructor <;> simp [tuInner]
  | cons d rest ih =>
    intro visited x
    by_cases hd : d ∈ visited
    · rw [tuInner, if_pos hd]
      constructor
      · rw [(ih visited x).1, List.mem_cons]
        constructor
        · rintro ⟨hx, hxv⟩
          exact ⟨Or.inr hx, hxv⟩
        · rintro ⟨rfl | hx, hxv⟩
          · exact absurd hd hxv
          · exact ⟨hx, hxv⟩
      · rw [(ih visited x).2, List.mem_cons]
        constructor
        · rintro (h | h)
          exacts [Or.inl h, Or.inr (Or.inr h)]
        · rintro (h | rfl | h)
          exacts [Or.inl h, Or.inl hd, Or.inr h]
    · rw [tuInner, if_neg hd]
      dsimp only
      constructor
      · rw [List.mem_cons, (ih (d :: visited) x).1]
        simp only [List.mem_cons]
        constructor
        · rintro (rfl | ⟨hx, hxv⟩)
          · exact ⟨Or.inl rfl, hd⟩
          · exact ⟨Or.inr hx, fun hc => hxv (Or.inr hc)⟩
        · rintro ⟨rfl | hx, hxv⟩
          · exact Or.inl rfl
          · by_cases hxd : x = d
            · exact Or.inl hxd
            · exact Or.inr ⟨hx, fun hc => hc.elim hxd hxv⟩
      · rw [(ih (d :: visited) x).2]
        simp only [List.mem_cons]
        constructor
        · rintro (h | h)
          · rcases h with rfl | h
            exacts [Or.inr (Or.inl rfl), Or.inl h]
          · exact Or.inr (Or.inr h)
        · rintro (h | rfl | h)
          exacts [Or.inl (Or.inr h), Or.inl (Or.inl rfl), Or.inr h]

theorem tuAux_mem (g : IncludesGraph) :
    ∀ (roots visited : List String) (x : String),
      x ∈ tuAux g roots visited
        ↔ x ∉ visited ∧ ∃ r ∈ roots, x ∈ g.getTransitiveDependencies r := by
  intro roots
  induction roots with
  | nil =>
    intro visited x
    simp [tuAux]
  | cons r rest ih =>
    intro visited x
    rw [tuAux, List.mem_append, (tuInner_mem _ _ _).1, ih _ x,
      (tuInner_mem _ _ _).2]
    constructor
    · rintro (⟨hx, hxv⟩ | ⟨hnv, r', hr', hx⟩)
      · exact ⟨hxv, r, List.mem_cons_self _ _, hx⟩
      · exact ⟨fun hc => hnv (Or.inl hc), r', List.mem_cons_of_mem _ hr', hx⟩
    · rintro ⟨hxv, r', hr', hx⟩
      rcases List.mem_cons.mp hr' with rfl | hr'
      · exact Or.inl ⟨hx, hxv⟩
      · by_cases hxr : x ∈ g.getTransitiveDependencies r
        · exact Or.inl ⟨hxr, hxv⟩
        · exact Or.inr ⟨fun hc => hc.elim hxv hxr, r', hr', hx⟩

theorem getIncludingRoots_mem (g : IncludesGraph) (uri r : String) :
    r ∈ g.getIncludingRoots uri
      ↔ r ∈ g.getTransitiveDependents uri
        ∧ g.isTranslationUnitRoot r = true := by
  unfold IncludesGraph.getIncludingRoots
  rw [List.mem_filter]
  constructor
  · rintro ⟨h1, h2⟩
    exact ⟨h1, h2⟩
  · rintro ⟨h1, h2⟩
    exact ⟨h1, h2⟩

theorem isTranslationUnitRoot_present {g : IncludesGraph} {r : String}
    (h : g.isTranslationUnitRoot r = true) :
    (jsMapGet g.nodes r).isSome = true := by
  unfold IncludesGraph.isTranslationUnitRoot at h
  cases hq : jsMapGet g.nodes r with
  | none => rw [hq] at h; simp at h
  | some n => simp

/-- On a graph whose every file lies on an include cycle with no outside
root, `getTranslationUnit` is empty: the node for `a` exists, yet the
translation-unit iterator for `a` yields nothing — in particular it does
not yield `a` itself. -/
theorem translationUnit_cycle_cex :
    (jsMapGet (((⟨[]⟩ : IncludesGraph).updateIncludes "a"
        ["b"]).updateIncludes "b" ["a"]).nodes "a").isSome = true
    ∧ (((⟨[]⟩ : IncludesGraph).updateIncludes "a"
        ["b"]).updateIncludes "b" ["a"]).getTranslationUnit "a" = [] := by
  constructor
  · decide
  · decide

/-- C4: on a well-formed graph satisfying the mutual-inverse edge invariant,
the translation-unit iterator for a known file `uri` yields `uri` itself if
and only if some file reachable from `uri` along `includedBy` edges
(possibly `uri` itself) has an empty `includedBy` set; a standalone file is
such a root of itself, but a file on a rootless include cycle is yielded by
no root and is absent from its own translation unit. -/
theorem mem_translationUnit_iff (g : IncludesGraph) (uri : String)
    (hnodup : (g.nodes.map Prod.fst).Nodup) (hinv : GraphInv g)
    (huri : (jsMapGet g.nodes uri).isSome = true) :
    uri ∈ g.getTranslationUnit uri
      ↔ ∃ r, ReachAvoid g .includedBy [] uri r
          ∧ g.isTranslationUnitRoot r = true := by
  unfold IncludesGraph.getTranslationUnit
  rw [tuAux_mem]
  constructor
  · rintro ⟨-, r, hr, -⟩
    rw [getIncludingRoots_mem] at hr
    exact ⟨r, (getTransitiveLinks_mem g .includedBy uri hnodup huri r).mp hr.1,
      hr.2⟩
  · rintro ⟨r, hra, hroot⟩
    refine ⟨by simp, r, ?_, ?_⟩
    · rw [getIncludingRoots_mem]
      exact ⟨(getTransitiveLinks_mem g .includedBy uri hnodup huri r).mpr hra,
        hroot⟩
    · exact (getTransitiveLinks_mem g .includes r hnodup
        (isTranslationUnitRoot_present hroot) uri).mpr (RA_symm_ib_inc hinv hra)

/-- Witness for `mem_translationUnit_iff`: in the two-file graph where `a`
includes `b`, the file `a` is its own including root and appears in its own
translation unit. -/
theorem mem_translationUnit_iff_wit :
    "a" ∈ ((⟨[]⟩ : IncludesGraph).updateIncludes "a" ["b"]).getTranslationUnit
      "a" :=
  (mem_translationUnit_iff ((⟨[]⟩ : IncludesGraph).updateIncludes "a" ["b"])
      "a" (by decide) (graphInv_of_bounded _ (by decide)) (by decide)).mpr
    ⟨"a", .refl (by simp), by decide⟩

/-! ## The resolver: local resolution, usage counting, import hints -/

theorem rlrLoop_eq_findSome (lookup : String → Option STEntity) :
    ∀ l : List String, rlrLoop lookup l = l.findSome? lookup := by
  intro l
  induction l with
  | nil => rfl
  | cons u rest ih =>
    rw [rlrLoop, List.findSome?_cons]
    cases hl : lookup u with
    | none => simpa using ih
    | some e => cases e <;> rfl

/-- C1 (amended): for a non-macro reference, the translation-unit local walk
returns the first file's hit in translation-unit order, whatever it is:
when the scoped lookup in some file of the unit yields an import, the loop
breaks and that import is the result, so a concrete definition in a later
file of the unit is never consulted (the spec's remember-and-continue
behavior does not happen). -/
theorem resolveLocalReference_first_hit (tabs : List (String × SymTab))
    (g : IncludesGraph) (ref : RefInfo) (h : ref.context ≠ .macroCtx) :
    resolveLocalReference tabs g ref
      = (g.getTranslationUnit ref.uri).findSome? (lookupInFile tabs ref) := by
  unfold resolveLocalReference
  rw [if_neg h, rlrLoop_eq_findSome]

/-- Witness for `resolveLocalReference_first_hit` at the concrete two-file
workspace. -/
theorem resolveLocalReference_first_hit_wit :
    resolveLocalReference c1Tabs c1Graph c1Ref
      = (c1Graph.getTranslationUnit c1Ref.uri).findSome?
          (lookupInFile c1Tabs c1Ref) :=
  resolveLocalReference_first_hit c1Tabs c1Graph c1Ref (by decide)

/-- C1 counterexample: in `c1Tabs`, file `f2` (a later file of `f1`'s
translation unit) holds a concrete definition of `n`, yet the local walk
for the reference in `f1` returns the import found in `f1`, and so does
`resolveReference` with an empty exports map — the import is not superseded
by the later concrete definition. -/
theorem resolveLocalReference_import_break_cex :
    lookupInFile c1Tabs c1Ref "f2"
      = some (.sym { uri := "f2", name := "n", defLine := 3 })
    ∧ resolveLocalReference c1Tabs c1Graph c1Ref = some (.imp c1Import)
    ∧ resolveReference (⟨[], []⟩ : ExportsMap) c1Tabs c1Graph false c1Ref
        = some (.imp c1Import) := by
  refine ⟨by decide, by decide, by decide⟩

theorem ieuInner_spec (tabs : List (String × SymTab)) (g : IncludesGraph)
    (ename : String) :
    ∀ (refs : List RefInfo) (c : Nat),
      ((ieuInner tabs g ename refs c).1
        = decide (2 ≤ c + refs.countP
              (fun ref => decide (ref.name = ename
                ∧ (resolveLocalReference tabs g ref).isSome = true))
            ∧ 1 ≤ refs.countP
              (fun ref => decide (ref.name = ename
                ∧ (resolveLocalReference tabs g ref).isSome = true))))
      ∧ ((ieuInner tabs g ename refs c).1 = false →
          (ieuInner tabs g ename refs c).2
            = c + refs.countP
                (fun ref => decide (ref.name = ename
                  ∧ (resolveLocalReference tabs g ref).isSome = true))) := by
  intro refs
  induction refs with
  | nil =>
    intro c
    constructor
    · simp [ieuInner]
    · intro _
      simp [ieuInner]
  | cons ref rest ih =>
    intro c
    rw [ieuInner, List.countP_cons]
    by_cases hp : ref.name = ename ∧ (resolveLocalReference tabs g ref).isSome = true
    · have hd : decide (ref.name = ename
          ∧ (resolveLocalReference tabs g ref).isSome = true) = true := by
        simpa using hp
      rw [if_pos hp, if_pos hd]
      by_cases hc : c + 1 > 1
      · rw [if_pos hc]
        refine ⟨(decide_eq_true (by omega)).symm, fun hfalse => ?_⟩
        simp at hfalse
      · rw [if_neg hc]
        obtain ⟨ih1, ih2⟩ := ih (c + 1)
        refine ⟨?_, ?_⟩
        · rw [ih1, decide_eq_decide]
          omega
        · intro hfalse
          rw [ih2 hfalse]
          omega
    · have hd : ¬ decide (ref.name = ename
          ∧ (resolveLocalReference tabs g ref).isSome = true) = true := by
        simpa using hp
      rw [if_neg hp, if_neg hd]
      obtain ⟨ih1, ih2⟩ := ih c
      refine ⟨?_, ?_⟩
      · rw [ih1, decide_eq_decide]
        omega
      · intro hfalse
        rw [ih2 hfalse]
        omega

theorem ieuOuter_spec (tabs : List (String × SymTab)) (g : IncludesGraph)
    (ename : String) :
    ∀ (uris : List String) (c : Nat),
      ieuOuter tabs g ename uris c
        = decide (2 ≤ c + (uris.flatMap fun u =>
              match jsMapGet tabs u with
              | some tab => tab.references
              | none => []).countP
              (fun ref => decide (ref.name = ename
                ∧ (resolveLocalReference tabs g ref).isSome = true))
            ∧ 1 ≤ (uris.flatMap fun u =>
              match jsMapGet tabs u with
              | some tab => tab.references
              | none => []).countP
              (fun ref => decide (ref.name = ename
                ∧ (resolveLocalReference tabs g ref).isSome = true))) := by
  intro uris
  induction uris with
  | nil =>
    intro c
    simp [ieuOuter]
  | cons u rest ih =>
    intro c
    cases hu : jsMapGet tabs u with
    | none =>
      rw [ieuOuter]
      simp only [hu, List.flatMap_cons, List.countP_append, List.countP_nil]
      rw [ih c, decide_eq_decide]
      omega
    | some tab =>
      rw [ieuOuter]
      simp only [hu, List.flatMap_cons, List.countP_append]
      obtain ⟨hi1, hi2⟩ := ieuInner_spec tabs g ename tab.references c
      cases hpair : ieuInner tabs g ename tab.references c with
      | mk b cnt =>
        rw [hpair] at hi1 hi2
        dsimp only at hi1 hi2
        cases b with
        | true =>
          have hk := of_decide_eq_true hi1.symm
          exact (decide_eq_true (by omega)).symm
        | false =>
          have hneg := of_decide_eq_false hi1.symm
          have hcnt := hi2 rfl
          show ieuOuter tabs g ename rest cnt = _
          rw [ih cnt, decide_eq_decide]
          omega

/-- C2 (amended): `isEntityUsed` does not check that a reference resolves
to the entity itself — it returns `true` exactly when at least two
references in the entity's translation-unit closure bear the entity's name
and locally resolve to anything at all. -/
theorem isEntityUsed_count (tabs : List (String × SymTab))
    (g : IncludesGraph) (entity : STEntity) :
    isEntityUsed tabs g entity
      = decide (2 ≤ (tuReferences tabs g entity.uri).countP
          (fun ref => decide (ref.name = entity.name
            ∧ (resolveLocalReference tabs g ref).isSome = true))) := by
  unfold isEntityUsed tuReferences
  rw [ieuOuter_spec, decide_eq_decide]
  omega

/-- C2 counterexample: the symbol `n` of `f2` is shadowed in every lookup
by the `n` of `f1`, so not a single reference in the workspace resolves to
it — by the claim it is unused — yet `isEntityUsed` reports it used,
because two same-named references resolve (both to the other symbol). -/
theorem isEntityUsed_shadowed_cex :
    isEntityUsed c2Tabs c2Graph c2Entity = true
    ∧ (c2Tab1.references ++ c2Tab2.references).all
        (fun ref => decide
          (resolveLocalReference c2Tabs c2Graph ref ≠ some c2Entity))
      = true := by
  refine ⟨by decide, by decide⟩

theorem importHintsLoop_eq (rel : String → String → String)
    (em : ExportsMap) (tabs : List (String × SymTab)) (g : IncludesGraph)
    (docUri : String) :
    ∀ l : List STImport,
      importHintsLoop rel em tabs g docUri l
        = l.filterMap (fun imp =>
            (resolveImport em tabs g imp.name).map (fun resolved =>
              { label := " from " ++ rel docUri resolved.uri,
                line := imp.defEndLine,
                character := imp.defEndChar })) := by
  intro l
  induction l with
  | nil => rfl
  | cons imp rest ih =>
    rw [importHintsLoop, List.filterMap_cons]
    cases hr : resolveImport em tabs g imp.name with
    | none => simpa using ih
    | some resolved => simpa using ih

/-- C9 (amended): with the document's table present, the import-hint branch
produces one ` from <relative-path>` hint at the definition end of
every import that `resolveImport` resolves through the exports map — whether or
not the resolved entity's file is the document itself; no same-file check
is performed. -/
theorem importFromHints_eq (rel : String → String → String)
    (em : ExportsMap) (tabs : List (String × SymTab)) (g : IncludesGraph)
    (docUri : String) (tab : SymTab)
    (h : jsMapGet tabs docUri = some tab) :
    importFromHints rel em tabs g docUri
      = tab.imports.filterMap (fun imp =>
          (resolveImport em tabs g imp.name).map (fun resolved =>
            { label := " from " ++ rel docUri resolved.uri,
              line := imp.defEndLine,
              character := imp.defEndChar })) := by
  unfold importFromHints
  simp only [h]
  rw [importHintsLoop_eq]

/-- Witness for `importFromHints_eq` at the concrete one-file workspace. -/
theorem importFromHints_eq_wit :
    importFromHints (fun _ _ => "p") c9Em c9Tabs c9Graph "f"
      = c9Tab.imports.filterMap (fun imp =>
          (resolveImport c9Em c9Tabs c9Graph imp.name).map (fun resolved =>
            { label := " from " ++ "p",
              line := imp.defEndLine,
              character := imp.defEndChar })) :=
  importFromHints_eq (fun _ _ => "p") c9Em c9Tabs c9Graph "f" c9Tab
    (by decide)

/-- C9 counterexample: in the one-file workspace `f` imports the very
symbol it defines and exports; the import resolves to an entity whose file
is the document itself, and a hint is produced all the same — the claim's
"an import that resolves to a definition in the same file yields no hint"
does not hold. -/
theorem importHint_same_file_cex :
    importFromHints (fun _ _ => "") c9Em c9Tabs c9Graph "f"
      = [{ label := " from ", line := 1, character := 9 }]
    ∧ (resolveImport c9Em c9Tabs c9Graph "n").map STEntity.uri = some "f" := by
  refine ⟨by decide, by decide⟩

/-! ## The scanner: mismatched closing directives -/

theorem afterSwitch_frame (st : ScanState) (line : Nat) (text : String)
    (cmd : String) (hlab : st.currentLabel = none) :
    afterSwitch st line text cmd none = (st, true) := by
  simp only [afterSwitch, hlab]

theorem closeScopeIfKind_mismatch (st : ScanState) (line : Nat)
    (text : String) (cmd : String) (want : STScopeKind) (d : ScanScope)
    (hd : st.scopes.get? st.currentScope = some d)
    (hmis : d.parent = none ∨ d.kind ≠ want) :
    closeScopeIfKind st line text cmd none want
      = ({ st with currentLabel := none }, true) := by
  simp only [closeScopeIfKind, hd]
  rcases hmis with hp | hk
  · simp only [hp]
    exact afterSwitch_frame _ _ _ _ rfl
  · cases hp : d.parent with
    | none =>
      simp only [hp]
      exact afterSwitch_frame _ _ _ _ rfl
    | some pid =>
      simp only [hp]
      rw [if_neg hk]
      exact afterSwitch_frame _ _ _ _ rfl

/-- C8 (amended): a `.endproc` (resp. `.endscope`) line with no label item
and no args item, scanned while the current scope is the root or its kind
is not `Proc` (resp. not `Scope`), leaves the directive unapplied — the
scope is not closed and no scope end span is stamped — but it is not a
no-op: the handler clears `currentLabel` before the mismatch checks, and
that is its only state change. -/
theorem endDirective_mismatch_frame (mnemo : String → Bool)
    (rinc : String → Option String) (st : ScanState) (line : Nat)
    (text : String) (c : LineItem) (d : ScanScope)
    (hlabel : (parseLine text.toList).label? = none)
    (hargs : (parseLine text.toList).args? = none)
    (hcmd : (parseLine text.toList).command? = some c)
    (hend : String.mk (c.text.map Char.toLower) = ".endproc"
          ∨ String.mk (c.text.map Char.toLower) = ".endscope")
    (hd : st.scopes.get? st.currentScope = some d)
    (hmis : d.parent = none
          ∨ (String.mk (c.text.map Char.toLower) = ".endproc"
              ∧ d.kind ≠ .proc)
          ∨ (String.mk (c.text.map Char.toLower) = ".endscope"
              ∧ d.kind ≠ .scope)) :
    maybeHandleGenericLine mnemo rinc st line text
      = ({ st with currentLabel := none }, true) := by
  simp only [maybeHandleGenericLine, hlabel, hargs, hcmd, handleLabelItem]
  rcases hend with hend | hend
  · rw [hend] at hmis ⊢
    rw [if_neg (by decide), if_pos rfl, if_neg (fun h => h.1 (by decide))]
    rcases hmis with hp | ⟨-, hk⟩ | ⟨habs, -⟩
    · exact closeScopeIfKind_mismatch st line text _ _ d hd (Or.inl hp)
    · exact closeScopeIfKind_mismatch st line text _ _ d hd (Or.inr hk)
    · exact absurd habs (by decide)
  · rw [hend] at hmis ⊢
    rw [if_neg (by decide), if_neg (by decide), if_pos rfl,
      if_neg (fun h => h.1 (by decide))]
    rcases hmis with hp | ⟨habs, -⟩ | ⟨-, hk⟩
    · exact closeScopeIfKind_mismatch st line text _ _ d hd (Or.inl hp)
    · exact absurd habs (by decide)
    · exact closeScopeIfKind_mismatch st line text _ _ d hd (Or.inr hk)

/-- Witness for `endDirective_mismatch_frame`: a `.endscope` at the root
scope clears the current label and changes nothing else. -/
theorem endDirective_mismatch_frame_wit :
    maybeHandleGenericLine (fun _ => false) (fun _ => none) c8StRoot 7
      ".endscope" = ({ c8StRoot with currentLabel := none }, true) :=
  endDirective_mismatch_frame (fun _ => false) (fun _ => none) c8StRoot 7
    ".endscope" ⟨".endscope".toList, 0⟩ { name := "" }
    (by decide) (by decide) (by decide) (Or.inr (by decide)) (by decide)
    (Or.inl (by decide))

/-- C8 counterexample: a `.endproc` scanned while the current scope's kind
is `Scope` is a mismatch, yet the scanner's state is not unchanged — the
current label (pending kind refinement and call-site tagging) is cleared;
everything else is preserved. -/
theorem endproc_mismatch_clears_label_cex :
    maybeHandleGenericLine (fun _ => false) (fun _ => none) c8St 5
      "  .endproc" = ({ c8St with currentLabel := none }, true)
    ∧ c8St.currentLabel = some 0 := by
  refine ⟨by decide, by decide⟩

end Ca65
